import Mathlib

/-!
Verification development for the segmented-tensor update engine of the
`interpret` repository.

The embedding covers:

* `SegmentedTensor` — a shallow embedding of the struct of the same name in
  `src/core/SegmentedTensor.h` (template instantiated at its only use:
  `TDivisions = ActiveDataType = size_t` modelled as `Nat`, and
  `TValues = FractionalDataType = double` modelled as `ℚ`; IEEE rounding of
  `double` addition is immaterial for the properties below, which concern
  structure, ordering and additive content).
  Buffers are `List`s whose length is the allocated capacity; entries past the
  meaningful counts correspond to uninitialized / garbage memory, which the
  modelled operations never read.  Freshly allocated or `realloc`-grown memory
  is represented with `0` entries (a stand-in for garbage that is never read
  before being written).  `malloc`/`realloc` failure is nondeterministic in C
  and modelled as success; the deterministic failure paths (the overflow
  checks `IsAddError` / `IsMultiplyError`) are modelled exactly.
* Functional translations of `Expand` and `Add`, plus direct transcriptions of
  their in-place pointer loops (`ExpandMachine`, `AddMachine`) used to
  cross-validate the functional translations on the concrete scenarios.
* A control-flow model of `GenerateTermUpdate`
  (`src/shared/libebm/GenerateTermUpdate.cpp`) over a small `double` datatype
  `Fp` with NaN and infinities, with the external collaborators
  (`BinSumsBoosting`, the partitioners, `ConvertAddBin`) abstracted as oracle
  inputs, as the spec treats them.
-/

/-- `IsAddError(a, b)` for 64-bit `size_t`: true iff `a + b` overflows. -/
def IsAddError (a b : Nat) : Bool := decide (2 ^ 64 ≤ a + b)

/-- `IsMultiplyError(a, b)` for 64-bit `size_t`: true iff `a * b` overflows. -/
def IsMultiplyError (a b : Nat) : Bool := decide (2 ^ 64 ≤ a * b)

/-- `sizeof(TValues)` with `TValues = FractionalDataType = double`. -/
def sizeofTValues : Nat := 8

/-- `sizeof(TDivisions)` with `TDivisions = ActiveDataType = size_t`. -/
def sizeofTDivisions : Nat := 8

/-- `k_initialDivisionCapacity` from `SegmentedTensor.h`. -/
def k_initialDivisionCapacity : Nat := 1

/-- `k_initialValueCapacity` from `SegmentedTensor.h`. -/
def k_initialValueCapacity : Nat := 2

/-- Per-dimension segmentation data (`SegmentedTensor::DimensionInfo`).
`m_aDivisions` is the whole allocated buffer (its length plays the role of
`m_cDivisionCapacity`); only the first `m_cDivisions` entries are meaningful. -/
structure DimensionInfo where
  m_cDivisions : Nat
  m_aDivisions : List Nat
deriving DecidableEq, Repr, Inhabited

/-- The segmented tensor (`SegmentedTensor<size_t, double>`).
`m_aValues` is the whole allocated buffer (its length plays the role of
`m_cValueCapacity`). -/
structure SegmentedTensor where
  m_cVectorLength : Nat
  m_cDimensionsMax : Nat
  m_cDimensions : Nat
  m_aValues : List ℚ
  m_bExpanded : Bool
  m_aDimensions : List DimensionInfo
deriving DecidableEq, Repr, Inhabited

/-- The active dimensions of the tensor (first `m_cDimensions` entries). -/
def dimsOf (t : SegmentedTensor) : List DimensionInfo :=
  t.m_aDimensions.take t.m_cDimensions

/-- Meaningful division points of one dimension. -/
def meanDivs (d : DimensionInfo) : List Nat :=
  d.m_aDivisions.take d.m_cDivisions

/-- Meaningful division sequences of all active axes. -/
def divisionsList (t : SegmentedTensor) : List (List Nat) :=
  (dimsOf t).map meanDivs

/-- Product of a list of naturals. -/
def listProd (l : List Nat) : Nat := l.foldr (fun a b => a * b) 1

/-- Count of meaningful scores: `L * Π (K_i + 1)` over the active axes. -/
def scoreCount (t : SegmentedTensor) : Nat :=
  t.m_cVectorLength * listProd ((dimsOf t).map (fun d => d.m_cDivisions + 1))

/-- `SegmentedTensor::Allocate` (SegmentedTensor.h:57).  Overflow checks as in
the source; allocator failure modelled as success; the `memset` zeroes the
first `cVectorLength` value slots (the rest of the fresh buffer is garbage the
operations never read, represented by `0`). -/
def SegmentedTensor.Allocate (cDimensionsMax cVectorLength : Nat) :
    Option SegmentedTensor :=
  if IsMultiplyError cVectorLength k_initialValueCapacity then none else
  let cValueCapacity := cVectorLength * k_initialValueCapacity
  if IsMultiplyError sizeofTValues cValueCapacity then none else
  some { m_cVectorLength := cVectorLength
         m_cDimensionsMax := cDimensionsMax
         m_cDimensions := cDimensionsMax
         m_aValues := List.replicate cValueCapacity 0
         m_bExpanded := false
         m_aDimensions :=
           List.replicate cDimensionsMax
             ⟨0, List.replicate k_initialDivisionCapacity 0⟩ }

/-- Helper for `Reset`: zero `m_cDivisions` of the first `n` dimensions. -/
def resetDimsList : Nat → List DimensionInfo → List DimensionInfo
  | 0, ds => ds
  | _ + 1, [] => []
  | n + 1, d :: ds => { d with m_cDivisions := 0 } :: resetDimsList n ds

/-- `SegmentedTensor::Reset` (SegmentedTensor.h:145): zero every active
division count, zero the first `m_cVectorLength` scores, clear `m_bExpanded`. -/
def SegmentedTensor.Reset (t : SegmentedTensor) : SegmentedTensor :=
  { t with
    m_aDimensions := resetDimsList t.m_cDimensions t.m_aDimensions
    m_aValues :=
      List.replicate t.m_cVectorLength 0 ++ t.m_aValues.drop t.m_cVectorLength
    m_bExpanded := false }

/-- `SegmentedTensor::SetCountDivisions` (SegmentedTensor.h:155).  The `Bool`
is the C++ return value (`true` = failure); the tensor is the state after the
call (unchanged on the overflow failure paths, as in the source where the
checks precede any mutation).  `realloc` preserves the old contents and its
failure is modelled as success. -/
def SegmentedTensor.SetCountDivisions (t : SegmentedTensor)
    (iDimension cDivisions : Nat) : Bool × SegmentedTensor :=
  let pDimension := t.m_aDimensions.getD iDimension default
  if pDimension.m_aDivisions.length < cDivisions then
    if IsAddError cDivisions (cDivisions / 2) then (true, t) else
    let cNewDivisionCapacity := cDivisions + cDivisions / 2
    if IsMultiplyError sizeofTDivisions cNewDivisionCapacity then (true, t) else
    let grown := pDimension.m_aDivisions ++
      List.replicate (cNewDivisionCapacity - pDimension.m_aDivisions.length) 0
    (false,
      { t with m_aDimensions :=
          t.m_aDimensions.set iDimension ⟨cDivisions, grown⟩ })
  else
    let d1 : DimensionInfo := ⟨cDivisions, pDimension.m_aDivisions⟩
    (false, { t with m_aDimensions := t.m_aDimensions.set iDimension d1 })

/-- `SegmentedTensor::EnsureValueCapacity` (SegmentedTensor.h:188), same
conventions as `SetCountDivisions`. -/
def SegmentedTensor.EnsureValueCapacity (t : SegmentedTensor)
    (cValues : Nat) : Bool × SegmentedTensor :=
  if t.m_aValues.length < cValues then
    if IsAddError cValues (cValues / 2) then (true, t) else
    let cNewValueCapacity := cValues + cValues / 2
    if IsMultiplyError sizeofTValues cNewValueCapacity then (true, t) else
    let grown := t.m_aValues ++
      List.replicate (cNewValueCapacity - t.m_aValues.length) 0
    (false, { t with m_aValues := grown })
  else (false, t)

/-- Dimension loop of `SegmentedTensor::IsEqual` (SegmentedTensor.h:776):
accumulates the meaningful value count while comparing division counts and
division sequences pairwise; `none` when a mismatch is found. -/
def isEqualLoop : List DimensionInfo → List DimensionInfo → Nat → Option Nat
  | [], [], cValues => some cValues
  | d1 :: t1, d2 :: t2, cValues =>
    if d1.m_cDivisions ≠ d2.m_cDivisions then none
    else if d1.m_cDivisions = 0 then isEqualLoop t1 t2 cValues
    else if meanDivs d1 = meanDivs d2 then
      isEqualLoop t1 t2 (cValues * (d1.m_cDivisions + 1))
    else none
  | _, _, _ => none

/-- `SegmentedTensor::IsEqual` (SegmentedTensor.h:770): same `m_cDimensions`,
same division counts and sequences on every active axis, same meaningful
scores.  Capacities and `m_bExpanded` are not inspected. -/
def SegmentedTensor.IsEqual (t rhs : SegmentedTensor) : Bool :=
  if t.m_cDimensions ≠ rhs.m_cDimensions then false
  else match isEqualLoop (dimsOf t) (dimsOf rhs) t.m_cVectorLength with
    | none => false
    | some cValues =>
      decide (t.m_aValues.take cValues = rhs.m_aValues.take cValues)

/-!
## The per-axis two-pointer union merge of `Add`

`Add` computes, for every axis, the sorted union of the two division
sequences: once forwards to count it (SegmentedTensor.h:566-585) and once
backwards to write it in place (SegmentedTensor.h:728-760).  `mergeDiv` is the
functional translation of that two-pointer merge: when the heads are equal
both advance and one copy is kept, otherwise the smaller head is emitted.
It is defined through a fuel-indexed recursor `mergeRun` so that it reduces
by kernel computation. -/
def mergeRun : Nat → List Nat → List Nat → List Nat
  | 0, l1, l2 => l1 ++ l2
  | _ + 1, l1, [] => l1
  | _ + 1, [], l2 => l2
  | fuel + 1, d1 :: t1, d2 :: t2 =>
    if d1 ≤ d2 then
      if d2 ≤ d1 then d1 :: mergeRun fuel t1 t2
      else d1 :: mergeRun fuel t1 (d2 :: t2)
    else d2 :: mergeRun fuel (d1 :: t1) t2

/-- Two-pointer sorted-union merge of two division sequences. -/
def mergeDiv (l1 l2 : List Nat) : List Nat :=
  mergeRun (l1.length + l2.length) l1 l2

/-!
## Functional translation of the reverse-traversal fills

Both `Expand` and `Add` fill the (aliasing) destination buffer by walking the
destination cells in reverse order with a per-dimension cursor stack; the
reverse order exists purely so that unread source cells are not clobbered.
The functional translation states the per-cell result of that walk directly:

* dimension `0` (the first entry of `m_aDimensions`) is the innermost,
  fastest-varying axis of the flat layout — in the cursor loops the first
  stack entry moves on every cell step and moves the source pointer by
  `multiplication1`, which starts at `m_cVectorLength` and is multiplied by
  `1 + m_cDivisions` of each dimension as the loop pops outwards;
* along one axis with divisions `d_1 < … < d_K`, the segment holding
  coordinate `c` is `#{ j | d_j < c }` (a division point is the *last*
  coordinate of its segment: after `Expand`, divisions are the identity
  `0, 1, …, bins − 2` and every coordinate is its own segment) — in the
  cursor loops this is the `bMove`/`bMove1` test `iDivision2 <= d1`
  (resp. `d2 <= d1`) firing exactly when the crossed destination coordinate
  equals a source division point.

`ExpandMachine` and `AddMachine` below transcribe the pointer loops verbatim
and are proved to agree with the functional translation on the concrete
scenarios. -/

/-- Segment index along one axis of the coordinate `c`. -/
def segIdx (divs : List Nat) (c : Nat) : Nat :=
  divs.countP (fun d => decide (d < c))

/-- First coordinate of segment `j` of the axis whose divisions are `merged`:
segment `j` covers `(merged_(j-1), merged_j]`. -/
def repCoord (merged : List Nat) (j : Nat) : Nat :=
  if j = 0 then 0 else merged.getD (j - 1) 0 + 1

/-- Decompose a flat cell index into per-axis segment indices, innermost
axis (dimension 0) first, given the per-axis segment counts. -/
def multiIndex : List Nat → Nat → List Nat
  | [], _ => []
  | s :: ss, cell => cell % s :: multiIndex ss (cell / s)

/-- Flatten per-axis segment indices, innermost axis first. -/
def flatIndex : List Nat → List Nat → Nat
  | s :: ss, j :: js => j + s * flatIndex ss js
  | _, _ => 0

/-- Map the per-axis segment indices of a cell of the merged grid to the
per-axis segment indices of a source tensor. -/
def mapSeg : List (List Nat) → List (List Nat) → List Nat → List Nat
  | dv :: ds, m :: ms, j :: js => segIdx dv (repCoord m j) :: mapSeg ds ms js
  | _, _, _ => []

/-- The meaningful values written by the reverse fill of `Add`
(SegmentedTensor.h:617-701): cell by cell, the sum of the scores of the two
source segments containing the cell. -/
def addValuesFill (L cNewValues : Nat) (vals1 vals2 : List ℚ)
    (divs1 divs2 : List (List Nat)) (sizes1 sizes2 sizesN : List Nat)
    (mergeds : List (List Nat)) : List ℚ :=
  (List.range (cNewValues * L)).map fun idx =>
    let cell := idx / L
    let k := idx % L
    let js := multiIndex sizesN cell
    vals1.getD (L * flatIndex sizes1 (mapSeg divs1 mergeds js) + k) 0 +
      vals2.getD (L * flatIndex sizes2 (mapSeg divs2 mergeds js) + k) 0

/-- The per-axis merged division sequences produced by `Add`. -/
def mergedsOf (t rhs : SegmentedTensor) : List (List Nat) :=
  List.zipWith (fun a b => mergeDiv (meanDivs a) (meanDivs b))
    (dimsOf t) (dimsOf rhs)

/-- Overwrite the meaningful division entries of axis `i` (the division
phase of `Add` rewrites them to the union; `Expand` to the identity). -/
def writeDivs (t : SegmentedTensor) (i : Nat) (m : List Nat) :
    SegmentedTensor :=
  let d := t.m_aDimensions.getD i default
  let d1 : DimensionInfo := ⟨d.m_cDivisions, m ++ d.m_aDivisions.drop m.length⟩
  { t with m_aDimensions := t.m_aDimensions.set i d1 }

/-- Division phase of `Add` (SegmentedTensor.h:709-765): per axis,
`SetCountDivisions` to the union size (its overflow checks may fail) and
rewrite of the division entries with the union. -/
def addDivsPhase : SegmentedTensor → Nat → List (List Nat) →
    Option SegmentedTensor
  | t, _, [] => some t
  | t, i, m :: ms =>
    match t.SetCountDivisions i m.length with
    | (true, _) => none
    | (false, t1) => addDivsPhase (writeDivs t1 i m) (i + 1) ms

/-- `SegmentedTensor::Add` (SegmentedTensor.h:507).  `none` models the C++
`true` (failure) returns: the overflow check on the new value count, the
overflow checks inside `EnsureValueCapacity`, and those inside the per-axis
`SetCountDivisions` calls.  (On those failures the C++ object can be left
partially mutated and is treated as logically invalid by callers; the claims
below only concern successful calls.) -/
def zeroDimAdd (t rhs : SegmentedTensor) : SegmentedTensor :=
  let newVals := (List.range t.m_cVectorLength).map
    (fun k => t.m_aValues.getD k 0 + rhs.m_aValues.getD k 0)
  { t with m_aValues := newVals ++ t.m_aValues.drop t.m_cVectorLength }

def SegmentedTensor.Add (t rhs : SegmentedTensor) : Option SegmentedTensor :=
  if t.m_cDimensions = 0 then
    -- SegmentedTensor.h:512-525: element-wise addition of the L scores
    some (zeroDimAdd t rhs)
  else
    let ds1 := dimsOf t
    let ds2 := dimsOf rhs
    let mergeds := mergedsOf t rhs
    let cNewValues := listProd (mergeds.map (fun m => m.length + 1))
    if IsMultiplyError cNewValues t.m_cVectorLength then none else
    match t.EnsureValueCapacity (cNewValues * t.m_cVectorLength) with
    | (true, _) => none
    | (false, t1) =>
      let newVals := addValuesFill t.m_cVectorLength cNewValues
        t1.m_aValues rhs.m_aValues (ds1.map meanDivs) (ds2.map meanDivs)
        (ds1.map (fun d => d.m_cDivisions + 1))
        (ds2.map (fun d => d.m_cDivisions + 1))
        (mergeds.map (fun m => m.length + 1)) mergeds
      let buf := newVals ++ t1.m_aValues.drop (cNewValues * t.m_cVectorLength)
      let t2 := { t1 with m_aValues := buf }
      addDivsPhase t2 0 mergeds

/-- The meaningful values written by the reverse fill of `Expand`
(SegmentedTensor.h:394-461): the cell at coordinates `cs` receives the scores
of the source segment containing it. -/
def expandValuesFill (L cNewValues : Nat) (vals1 : List ℚ)
    (divs1 : List (List Nat)) (sizes1 bins : List Nat) : List ℚ :=
  (List.range (cNewValues * L)).map fun idx =>
    let cell := idx / L
    let k := idx % L
    let cs := multiIndex bins cell
    vals1.getD (L * flatIndex sizes1 (List.zipWith segIdx divs1 cs) + k) 0

/-- Division phase of `Expand` (SegmentedTensor.h:466-481): axes whose
division count already equals `bins_i - 1` are skipped; the others get
`SetCountDivisions` and identity division entries `0, …, bins_i - 2`. -/
def expDivsPhase : SegmentedTensor → Nat → List Nat → Option SegmentedTensor
  | t, _, [] => some t
  | t, i, b :: bs =>
    let cDivisions := b - 1
    if cDivisions = (t.m_aDimensions.getD i default).m_cDivisions then
      expDivsPhase t (i + 1) bs
    else
      match t.SetCountDivisions i cDivisions with
      | (true, _) => none
      | (false, t1) =>
        expDivsPhase (writeDivs t1 i (List.range cDivisions)) (i + 1) bs

/-- `SegmentedTensor::Expand` (SegmentedTensor.h:325).  Idempotent when
already expanded (returns success without work); otherwise densifies onto the
grid given by `acValuesPerDimension` and rewrites the divisions to the
identity, setting `m_bExpanded`. -/
def SegmentedTensor.Expand (t : SegmentedTensor)
    (acValuesPerDimension : List Nat) : Option SegmentedTensor :=
  if t.m_bExpanded then some t else
  let ds1 := dimsOf t
  let bins := acValuesPerDimension.take t.m_cDimensions
  let cNewValues := listProd bins
  if IsMultiplyError cNewValues t.m_cVectorLength then none else
  match t.EnsureValueCapacity (cNewValues * t.m_cVectorLength) with
  | (true, _) => none
  | (false, t1) =>
    let newVals := expandValuesFill t.m_cVectorLength cNewValues
      t1.m_aValues (ds1.map meanDivs)
      (ds1.map (fun d => d.m_cDivisions + 1)) bins
    let buf := newVals ++ t1.m_aValues.drop (cNewValues * t.m_cVectorLength)
    let t2 := { t1 with m_aValues := buf }
    match expDivsPhase t2 0 bins with
    | none => none
    | some t3 => some { t3 with m_bExpanded := true }

/-!
## Concrete scenario tensors (spec §8) -/

/-- Scenario C operand: `D = 1`, `L = 1`, `divisions = [1]`,
`values = [7, 9]` (value capacity 2, division capacity 1). -/
def scenC : SegmentedTensor :=
  { m_cVectorLength := 1, m_cDimensionsMax := 1, m_cDimensions := 1
    m_aValues := [7, 9], m_bExpanded := false
    m_aDimensions := [⟨1, [1]⟩] }

/-- Scenario D left operand: `D = 2`, `L = 1`, `divs0 = [1]`, `divs1 = []`,
`values = [1, 2]`. -/
def scenD_A : SegmentedTensor :=
  { m_cVectorLength := 1, m_cDimensionsMax := 2, m_cDimensions := 2
    m_aValues := [1, 2], m_bExpanded := false
    m_aDimensions := [⟨1, [1]⟩, ⟨0, [0]⟩] }

/-- Scenario D right operand: `D = 2`, `L = 1`, `divs0 = []`, `divs1 = [3]`,
`values = [10, 20]`. -/
def scenD_B : SegmentedTensor :=
  { m_cVectorLength := 1, m_cDimensionsMax := 2, m_cDimensions := 2
    m_aValues := [10, 20], m_bExpanded := false
    m_aDimensions := [⟨0, [0]⟩, ⟨1, [3]⟩] }

/-- Scenario B left operand: `D = 1`, `L = 1`, `divisions = [2]`,
`values = [10, 20]`. -/
def scenB_A : SegmentedTensor :=
  { m_cVectorLength := 1, m_cDimensionsMax := 1, m_cDimensions := 1
    m_aValues := [10, 20], m_bExpanded := false
    m_aDimensions := [⟨1, [2]⟩] }

/-- Scenario B right operand: `D = 1`, `L = 1`, `divisions = [5]`,
`values = [1, 2]`. -/
def scenB_B : SegmentedTensor :=
  { m_cVectorLength := 1, m_cDimensionsMax := 1, m_cDimensions := 1
    m_aValues := [1, 2], m_bExpanded := false
    m_aDimensions := [⟨1, [5]⟩] }

/-!
## Direct transcriptions of the in-place pointer loops

Pointers into a buffer are represented by their offset from the start of the
buffer; the fuel arguments strictly bound the iteration counts of the
`while(true)` loops (one destination cell per iteration of the value loops,
one written division per iteration of the reverse division merge), so the
transcriptions below run the loops to completion on every input the claims
evaluate them at. -/

/-- Stack entry of `Add` (`SegmentedTensor::DimensionInfoStack`). -/
structure AddStackEnt where
  pDivision1 : Nat
  pDivision2 : Nat
  cNewDivisions : Nat
deriving DecidableEq, Repr

/-- Stack entry of `Expand` (`SegmentedTensor::DimensionInfoStackExpand`). -/
structure ExpStackEnt where
  pDivision1 : Nat
  iDivision2 : Nat
  cNewDivisions : Nat
deriving DecidableEq, Repr

/-- Forward two-pointer union counting loop of `Add`
(SegmentedTensor.h:566-585). -/
def countRun : Nat → List Nat → List Nat → Nat
  | 0, _, _ => 0
  | _ + 1, l1, [] => l1.length
  | _ + 1, [], l2 => l2.length
  | fuel + 1, d1 :: t1, d2 :: t2 =>
    1 + countRun fuel (if d1 ≤ d2 then t1 else d1 :: t1)
      (if d2 ≤ d1 then t2 else d2 :: t2)

/-- Inner cursor loop of `Add` (SegmentedTensor.h:644-700): update the
dimension stack and the two source pointers when stepping down one
destination cell. -/
def addCursor : List AddStackEnt → List DimensionInfo → List DimensionInfo →
    Nat → Nat → Nat → Nat → List AddStackEnt × Nat × Nat
  | e :: es, dim1 :: d1s, dim2 :: d2s, m1, m2, p1, p2 =>
    if 0 < e.pDivision1 then
      if 0 < e.pDivision2 then
        let d1 := dim1.m_aDivisions.getD (e.pDivision1 - 1) 0
        let d2 := dim2.m_aDivisions.getD (e.pDivision2 - 1) 0
        let bMove1 := d2 ≤ d1
        let bMove2 := d1 ≤ d2
        ({ e with
            pDivision1 := if bMove1 then e.pDivision1 - 1 else e.pDivision1
            pDivision2 := if bMove2 then e.pDivision2 - 1 else e.pDivision2 }
          :: es,
         (if bMove1 then p1 - m1 else p1), (if bMove2 then p2 - m2 else p2))
      else ({ e with pDivision1 := e.pDivision1 - 1 } :: es, p1 - m1, p2)
    else
      if 0 < e.pDivision2 then
        ({ e with pDivision2 := e.pDivision2 - 1 } :: es, p1, p2 - m2)
      else
        let m1' := m1 * (1 + dim1.m_cDivisions)
        let m2' := m2 * (1 + dim2.m_cDivisions)
        let r := addCursor es d1s d2s m1' m2' (p1 - m1 + m1') (p2 - m2 + m2')
        ({ e with
            pDivision1 := dim1.m_cDivisions
            pDivision2 := dim2.m_cDivisions } :: r.1, r.2)
  | es, _, _, _, _, p1, p2 => (es, p1, p2)

/-- One copy block of `Add`'s value loop (SegmentedTensor.h:618-626): write
the `L` scores of destination cell ending at offset `top`, reading (in the
source order, so that the in-place aliasing is modelled exactly) from the
same buffer at `p1` and from `rhs` at `p2`. -/
def writeCellAdd (L : Nat) (rhsVals : List ℚ) (buf : List ℚ)
    (p1 p2 top : Nat) : List ℚ :=
  (List.range L).foldl
    (fun b k => b.set (top - 1 - k)
      (b.getD (p1 - 1 - k) 0 + rhsVals.getD (p2 - 1 - k) 0)) buf

/-- Outer value loop of `Add` (SegmentedTensor.h:617-701). -/
def addValueLoop : Nat → Nat → List ℚ → List DimensionInfo →
    List DimensionInfo → List ℚ → List AddStackEnt → Nat → Nat → Nat → List ℚ
  | 0, _, _, _, _, buf, _, _, _, _ => buf
  | fuel + 1, L, rhsVals, d1s, d2s, buf, stack, p1, p2, top =>
    let buf1 := writeCellAdd L rhsVals buf p1 p2 top
    let top1 := top - L
    if top1 = 0 then buf1
    else
      let r := addCursor stack d1s d2s L L p1 p2
      addValueLoop fuel L rhsVals d1s d2s buf1 r.1 r.2.1 r.2.2 top1

/-- Reverse in-place division merge of `Add` (SegmentedTensor.h:728-760),
writing the union into the (already grown) buffer `arr` of `this`'s axis from
the top; the `memcpy` remainder copy fires when the remaining top offset
equals the remaining rhs offset. -/
def divMergeRev : Nat → List Nat → List Nat → Nat → Nat → Nat → List Nat
  | 0, arr, _, _, _, _ => arr
  | fuel + 1, arr, divs2, p1, p2, top =>
    if top = p1 then arr
    else if top = p2 then divs2.take top ++ arr.drop top
    else
      let d1 := arr.getD (p1 - 1) 0
      let d2 := divs2.getD (p2 - 1) 0
      let p1' := if d2 ≤ d1 then p1 - 1 else p1
      let p2' := if d1 ≤ d2 then p2 - 1 else p2
      let d := if d1 ≤ d2 then d2 else d1
      divMergeRev fuel (arr.set (top - 1) d) divs2 p1' p2' (top - 1)

/-- Division phase of `Add`, machine version (SegmentedTensor.h:709-765). -/
def addDivsMachine : SegmentedTensor → List DimensionInfo →
    List AddStackEnt → Nat → Option SegmentedTensor
  | t, _, [], _ => some t
  | t, [], _, _ => some t
  | t, dim2 :: d2s, e :: es, i =>
    let cOriginal := (t.m_aDimensions.getD i default).m_cDivisions
    match t.SetCountDivisions i e.cNewDivisions with
    | (true, _) => none
    | (false, t1) =>
      let arr := (t1.m_aDimensions.getD i default).m_aDivisions
      let arr' := divMergeRev (e.cNewDivisions + 1) arr dim2.m_aDivisions
        cOriginal dim2.m_cDivisions e.cNewDivisions
      let d1 : DimensionInfo := ⟨e.cNewDivisions, arr'⟩
      let t2 := { t1 with m_aDimensions := t1.m_aDimensions.set i d1 }
      addDivsMachine t2 d2s es (i + 1)

/-- Machine transcription of `SegmentedTensor::Add` (SegmentedTensor.h:507):
the counting pass, the reverse in-place value fill driven by the cursor
stack, then the per-axis division rewrite. -/
def AddMachine (t rhs : SegmentedTensor) : Option SegmentedTensor :=
  if t.m_cDimensions = 0 then t.Add rhs
  else
    let ds1 := dimsOf t
    let ds2 := dimsOf rhs
    let stack := List.zipWith
      (fun a b => AddStackEnt.mk a.m_cDivisions b.m_cDivisions
        (countRun (a.m_cDivisions + b.m_cDivisions + 1)
          (meanDivs a) (meanDivs b))) ds1 ds2
    let cValues1 := listProd (ds1.map (fun d => d.m_cDivisions + 1))
    let cValues2 := listProd (ds2.map (fun d => d.m_cDivisions + 1))
    let cNewValues := listProd (stack.map (fun e => e.cNewDivisions + 1))
    let L := t.m_cVectorLength
    if IsMultiplyError cNewValues L then none else
    match t.EnsureValueCapacity (cNewValues * L) with
    | (true, _) => none
    | (false, t1) =>
      let buf := addValueLoop (cNewValues + 1) L rhs.m_aValues ds1 ds2
        t1.m_aValues stack (L * cValues1) (L * cValues2) (L * cNewValues)
      let t2 := { t1 with m_aValues := buf }
      addDivsMachine t2 ds2 stack 0

/-- Inner cursor loop of `Expand` (SegmentedTensor.h:417-460). -/
def expCursor : List ExpStackEnt → List DimensionInfo → Nat → Nat →
    List ExpStackEnt × Nat
  | e :: es, dim1 :: d1s, m1, p1 =>
    if 0 < e.pDivision1 then
      let d1 := dim1.m_aDivisions.getD (e.pDivision1 - 1) 0
      let i2 := e.iDivision2 - 1
      let bMove := i2 ≤ d1
      ({ e with
          pDivision1 := if bMove then e.pDivision1 - 1 else e.pDivision1
          iDivision2 := i2 } :: es,
       if bMove then p1 - m1 else p1)
    else
      if 0 < e.iDivision2 then
        ({ e with iDivision2 := e.iDivision2 - 1 } :: es, p1)
      else
        let m1' := m1 * (1 + dim1.m_cDivisions)
        let r := expCursor es d1s m1' (p1 - m1 + m1')
        ({ e with pDivision1 := dim1.m_cDivisions
                  iDivision2 := e.cNewDivisions } :: r.1, r.2)
  | es, _, _, p1 => (es, p1)

/-- One copy block of `Expand`'s value loop (SegmentedTensor.h:395-401). -/
def writeCellExp (L : Nat) (buf : List ℚ) (p1 top : Nat) : List ℚ :=
  (List.range L).foldl
    (fun b k => b.set (top - 1 - k) (b.getD (p1 - 1 - k) 0)) buf

/-- Outer value loop of `Expand` (SegmentedTensor.h:394-461). -/
def expValueLoop : Nat → Nat → List DimensionInfo → List ℚ →
    List ExpStackEnt → Nat → Nat → List ℚ
  | 0, _, _, buf, _, _, _ => buf
  | fuel + 1, L, d1s, buf, stack, p1, top =>
    let buf1 := writeCellExp L buf p1 top
    let top1 := top - L
    if top1 = 0 then buf1
    else
      let r := expCursor stack d1s L p1
      expValueLoop fuel L d1s buf1 r.1 r.2 top1

/-- Machine transcription of `SegmentedTensor::Expand`
(SegmentedTensor.h:325): the reverse in-place value fill driven by the cursor
stack, then the identity division rewrite (shared with the functional
translation, whose division phase is already a direct transcription). -/
def ExpandMachine (t : SegmentedTensor) (acValuesPerDimension : List Nat) :
    Option SegmentedTensor :=
  if t.m_bExpanded then some t else
  let ds1 := dimsOf t
  let bins := acValuesPerDimension.take t.m_cDimensions
  let stack := List.zipWith
    (fun d b => ExpStackEnt.mk d.m_cDivisions (b - 1) (b - 1)) ds1 bins
  let cValues1 := listProd (ds1.map (fun d => d.m_cDivisions + 1))
  let cNewValues := listProd bins
  let L := t.m_cVectorLength
  if IsMultiplyError cNewValues L then none else
  match t.EnsureValueCapacity (cNewValues * L) with
  | (true, _) => none
  | (false, t1) =>
    let buf := expValueLoop (cNewValues + 1) L ds1 t1.m_aValues stack
      (L * cValues1) (L * cNewValues)
    let t2 := { t1 with m_aValues := buf }
    match expDivsPhase t2 0 bins with
    | none => none
    | some t3 => some { t3 with m_bExpanded := true }

/-- Cross-check operand: `D = 2`, `L = 2`, `divs0 = [1, 4]`, `divs1 = [2]`,
grid 3×2, twelve meaningful scores. -/
def mixA : SegmentedTensor :=
  { m_cVectorLength := 2, m_cDimensionsMax := 2, m_cDimensions := 2
    m_aValues := [1, 2, 3, 4, 5, 6, 7, 8, 9, 10, 11, 12]
    m_bExpanded := false
    m_aDimensions := [⟨2, [1, 4, 0]⟩, ⟨1, [2]⟩] }

/-- Cross-check operand: `D = 2`, `L = 2`, `divs0 = [4, 6]` (shares the
division `4` with `mixA`), `divs1 = []`, grid 3×1. -/
def mixB : SegmentedTensor :=
  { m_cVectorLength := 2, m_cDimensionsMax := 2, m_cDimensions := 2
    m_aValues := [100, 200, 300, 400, 500, 600]
    m_bExpanded := false
    m_aDimensions := [⟨2, [4, 6]⟩, ⟨0, []⟩] }

/-- Cross-check operand: `D = 3`, `L = 1`, `divs = [5] / [] / [1]`. -/
def mixC : SegmentedTensor :=
  { m_cVectorLength := 1, m_cDimensionsMax := 3, m_cDimensions := 3
    m_aValues := [1, 2, 3, 4], m_bExpanded := false
    m_aDimensions := [⟨1, [5]⟩, ⟨0, []⟩, ⟨1, [1]⟩] }

/-- Cross-check operand: `D = 3`, `L = 1`, `divs = [2, 5] / [0] / []`. -/
def mixD : SegmentedTensor :=
  { m_cVectorLength := 1, m_cDimensionsMax := 3, m_cDimensions := 3
    m_aValues := [10, 20, 30, 40, 50, 60], m_bExpanded := false
    m_aDimensions := [⟨2, [2, 5]⟩, ⟨1, [0]⟩, ⟨0, [9]⟩] }

set_option maxRecDepth 4000
set_option exponentiation.threshold 2000

/-- The pointer-machine transcription and the functional translation of
`Expand` agree (full resulting records, buffers included) on scenario C. -/
theorem expandMachine_agrees_scenC : ExpandMachine scenC [4] = scenC.Expand [4] := by
  with_unfolding_all decide

/-- Machine/functional agreement of `Expand` on a three-dimensional input. -/
theorem expandMachine_agrees_mixC :
    ExpandMachine mixC [7, 2, 3] = mixC.Expand [7, 2, 3] := by with_unfolding_all decide

/-- Machine/functional agreement of `Expand` on a two-dimensional input with
a two-score vector. -/
theorem expandMachine_agrees_mixA :
    ExpandMachine mixA [8, 4] = mixA.Expand [8, 4] := by with_unfolding_all decide

/-- Machine/functional agreement of `Add` on scenario D. -/
theorem addMachine_agrees_scenD :
    AddMachine scenD_A scenD_B = scenD_A.Add scenD_B := by with_unfolding_all decide

/-- Machine/functional agreement of `Add` on scenario B. -/
theorem addMachine_agrees_scenB :
    AddMachine scenB_A scenB_B = scenB_A.Add scenB_B := by with_unfolding_all decide

/-- Machine/functional agreement of `Add` on a two-dimensional pair with a
shared division point and a two-score vector, both orders. -/
theorem addMachine_agrees_mixAB :
    AddMachine mixA mixB = mixA.Add mixB ∧
    AddMachine mixB mixA = mixB.Add mixA := by with_unfolding_all decide

/-- Machine/functional agreement of `Add` on a three-dimensional pair, both
orders. -/
theorem addMachine_agrees_mixCD :
    AddMachine mixC mixD = mixC.Add mixD ∧
    AddMachine mixD mixC = mixD.Add mixC := by with_unfolding_all decide

/-!
## Claims C1 and C2 -/

/-- Claim C1, counterexample: on scenario C (`D = 1`, `L = 1`,
`divisions = [1]`, `values = [7, 9]`), the successful `Expand([4])` does *not*
produce the meaningful values `[7, 9, 9, 9]` stated by the claim — a division
point is the last cell of its segment, so cell 1 still belongs to the first
segment and receives `7`. -/
theorem C1_counterexample :
    ((scenC.Expand [4]).map fun t => t.m_aValues.take 4) ≠
      some ([7, 9, 9, 9] : List ℚ) := by with_unfolding_all decide

/-- Claim C1, amended: on scenario C the successful `Expand([4])` produces
`divisions = [0, 1, 2]`, meaningful values `[7, 7, 9, 9]`, and
`expanded = true`. -/
theorem C1_amended_expand_scenC :
    ((scenC.Expand [4]).map fun t =>
      (divisionsList t, t.m_aValues.take 4, t.m_bExpanded)) =
      some ([[0, 1, 2]], ([7, 7, 9, 9] : List ℚ), true) := by with_unfolding_all decide

/-- Claim C2, counterexample: on scenario D the successful `A.Add(B)` does
*not* produce the meaningful values `[11, 21, 12, 22]` stated by the claim —
dimension 0 is the innermost (fastest-varying) dimension of the flat storage,
so the cell of segment 1 of axis 0 and segment 0 of axis 1 (score `12`) sits
at flat position 1. -/
theorem C2_counterexample :
    ((scenD_A.Add scenD_B).map fun t => t.m_aValues.take 4) ≠
      some ([11, 21, 12, 22] : List ℚ) := by with_unfolding_all decide

/-- Claim C2, amended: on scenario D the successful `A.Add(B)` produces
`divs0 = [1]`, `divs1 = [3]`, and meaningful values `[11, 12, 21, 22]` in the
tensor's flat storage order (innermost dimension 0 first). -/
theorem C2_amended_add_scenD :
    ((scenD_A.Add scenD_B).map fun t =>
      (divisionsList t, t.m_aValues.take 4)) =
      some ([[1], [3]], ([11, 12, 21, 22] : List ℚ)) := by with_unfolding_all decide

/-!
## Theory of the two-pointer union merge -/

/-- `mergeRun` with an empty right operand, any fuel. -/
theorem mergeRun_nil_right : ∀ (fuel : Nat) (l1 : List Nat),
    mergeRun fuel l1 [] = l1 := by
  intro fuel l1
  cases fuel with
  | zero => simp [mergeRun]
  | succ fuel => cases l1 <;> rfl

/-- `mergeRun` with an empty left operand, any fuel. -/
theorem mergeRun_nil_left : ∀ (fuel : Nat) (l2 : List Nat),
    mergeRun fuel [] l2 = l2 := by
  intro fuel l2
  cases fuel with
  | zero => simp [mergeRun]
  | succ fuel => cases l2 <;> rfl

/-- Unfolding equation of `mergeRun` at positive fuel on nonempty lists. -/
theorem mergeRun_succ_cons_cons (fuel d1 d2 : Nat) (t1 t2 : List Nat) :
    mergeRun (fuel + 1) (d1 :: t1) (d2 :: t2) =
      if d1 ≤ d2 then
        if d2 ≤ d1 then d1 :: mergeRun fuel t1 t2
        else d1 :: mergeRun fuel t1 (d2 :: t2)
      else d2 :: mergeRun fuel (d1 :: t1) t2 := rfl

/-- The result of `mergeRun` does not depend on the fuel once the fuel covers
the total length of the inputs (each step consumes at least one element). -/
theorem mergeRun_congr_fuel : ∀ (f1 : Nat) (f2 : Nat) (l1 l2 : List Nat),
    l1.length + l2.length ≤ f1 → l1.length + l2.length ≤ f2 →
    mergeRun f1 l1 l2 = mergeRun f2 l1 l2 := by
  intro f1
  induction f1 with
  | zero =>
    intro f2 l1 l2 h1 _
    have e1 : l1 = [] := List.eq_nil_of_length_eq_zero (by omega)
    have e2 : l2 = [] := List.eq_nil_of_length_eq_zero (by omega)
    subst e1; subst e2
    rw [mergeRun_nil_left, mergeRun_nil_left]
  | succ f1 ih =>
    intro f2 l1 l2 h1 h2
    cases l1 with
    | nil => rw [mergeRun_nil_left, mergeRun_nil_left]
    | cons d1 t1 =>
      cases l2 with
      | nil => rw [mergeRun_nil_right, mergeRun_nil_right]
      | cons d2 t2 =>
        simp only [List.length_cons] at h1 h2
        cases f2 with
        | zero => omega
        | succ f2 =>
          rw [mergeRun_succ_cons_cons, mergeRun_succ_cons_cons]
          split
          · split
            · rw [ih f2 t1 t2 (by omega) (by omega)]
            · rw [ih f2 t1 (d2 :: t2) (by simp only [List.length_cons]; omega) (by simp only [List.length_cons]; omega)]
          · rw [ih f2 (d1 :: t1) t2 (by simp only [List.length_cons]; omega) (by simp only [List.length_cons]; omega)]

/-- Any sufficient fuel computes `mergeDiv`. -/
theorem mergeRun_eq_mergeDiv {fuel : Nat} {l1 l2 : List Nat}
    (h : l1.length + l2.length ≤ fuel) :
    mergeRun fuel l1 l2 = mergeDiv l1 l2 :=
  mergeRun_congr_fuel fuel (l1.length + l2.length) l1 l2 h le_rfl

/-- `mergeDiv` with an empty right operand. -/
theorem mergeDiv_nil_right (l1 : List Nat) : mergeDiv l1 [] = l1 :=
  mergeRun_nil_right _ l1

/-- `mergeDiv` with an empty left operand. -/
theorem mergeDiv_nil_left (l2 : List Nat) : mergeDiv [] l2 = l2 :=
  mergeRun_nil_left _ l2

/-- Unfolding equation of `mergeDiv` on two nonempty lists. -/
theorem mergeDiv_cons_cons (d1 d2 : Nat) (t1 t2 : List Nat) :
    mergeDiv (d1 :: t1) (d2 :: t2) =
      if d1 ≤ d2 then
        if d2 ≤ d1 then d1 :: mergeDiv t1 t2
        else d1 :: mergeDiv t1 (d2 :: t2)
      else d2 :: mergeDiv (d1 :: t1) t2 := by
  show mergeRun ((d1 :: t1).length + (d2 :: t2).length) _ _ = _
  have hL : (d1 :: t1).length + (d2 :: t2).length =
      (t1.length + (t2.length + 1)) + 1 := by simp; omega
  rw [hL, mergeRun_succ_cons_cons]
  split
  · split
    · rw [mergeRun_eq_mergeDiv (by omega)]
    · rw [mergeRun_eq_mergeDiv (by simp only [List.length_cons]; omega)]
  · rw [mergeRun_eq_mergeDiv (by simp only [List.length_cons]; omega)]

/-- Membership in the two-pointer merge is membership in either operand. -/
theorem mem_mergeRun : ∀ (fuel : Nat) (l1 l2 : List Nat),
    l1.length + l2.length ≤ fuel →
    ∀ x, x ∈ mergeRun fuel l1 l2 ↔ x ∈ l1 ∨ x ∈ l2 := by
  intro fuel
  induction fuel with
  | zero =>
    intro l1 l2 h x
    have e1 : l1 = [] := List.eq_nil_of_length_eq_zero (by omega)
    have e2 : l2 = [] := List.eq_nil_of_length_eq_zero (by omega)
    subst e1; subst e2
    simp [mergeRun_nil_left]
  | succ fuel ih =>
    intro l1 l2 h x
    cases l1 with
    | nil => rw [mergeRun_nil_left]; simp
    | cons d1 t1 =>
      cases l2 with
      | nil => rw [mergeRun_nil_right]; simp
      | cons d2 t2 =>
        simp only [List.length_cons] at h
        rw [mergeRun_succ_cons_cons]
        split
        · split
          · rename_i hle hge
            have hd : d1 = d2 := Nat.le_antisymm hle hge
            subst hd
            rw [List.mem_cons, ih t1 t2 (by omega) x]
            simp only [List.mem_cons]
            tauto
          · rw [List.mem_cons, ih t1 (d2 :: t2) (by simp only [List.length_cons]; omega) x]
            simp only [List.mem_cons]
            tauto
        · rw [List.mem_cons, ih (d1 :: t1) t2 (by simp only [List.length_cons]; omega) x]
          simp only [List.mem_cons]
          tauto

/-- Membership in `mergeDiv` is membership in either operand. -/
theorem mem_mergeDiv (l1 l2 : List Nat) (x : Nat) :
    x ∈ mergeDiv l1 l2 ↔ x ∈ l1 ∨ x ∈ l2 :=
  mem_mergeRun (l1.length + l2.length) l1 l2 le_rfl x

/-- The two-pointer merge is symmetric: at every step it compares the two
heads and emits the smaller one, emitting a single copy when they are equal. -/
theorem mergeRun_comm : ∀ (fuel : Nat) (l1 l2 : List Nat),
    l1.length + l2.length ≤ fuel →
    mergeRun fuel l1 l2 = mergeRun fuel l2 l1 := by
  intro fuel
  induction fuel with
  | zero =>
    intro l1 l2 h
    have e1 : l1 = [] := List.eq_nil_of_length_eq_zero (by omega)
    have e2 : l2 = [] := List.eq_nil_of_length_eq_zero (by omega)
    subst e1; subst e2; rfl
  | succ fuel ih =>
    intro l1 l2 h
    cases l1 with
    | nil => rw [mergeRun_nil_left, mergeRun_nil_right]
    | cons d1 t1 =>
      cases l2 with
      | nil => rw [mergeRun_nil_left, mergeRun_nil_right]
      | cons d2 t2 =>
        simp only [List.length_cons] at h
        rw [mergeRun_succ_cons_cons, mergeRun_succ_cons_cons]
        rcases Nat.lt_trichotomy d1 d2 with hlt | heq | hgt
        · rw [if_pos (Nat.le_of_lt hlt), if_neg (by omega), if_neg (by omega)]
          rw [ih t1 (d2 :: t2) (by simp only [List.length_cons]; omega)]
        · subst heq
          rw [if_pos le_rfl, if_pos le_rfl, if_pos le_rfl, if_pos le_rfl]
          rw [ih t1 t2 (by omega)]
        · rw [if_neg (by omega), if_pos (Nat.le_of_lt hgt), if_neg (by omega)]
          rw [ih (d1 :: t1) t2 (by simp only [List.length_cons]; omega)]

/-- `mergeDiv` is commutative. -/
theorem mergeDiv_comm (l1 l2 : List Nat) : mergeDiv l1 l2 = mergeDiv l2 l1 := by
  unfold mergeDiv
  rw [mergeRun_comm _ _ _ le_rfl,
    mergeRun_congr_fuel _ (l2.length + l1.length) l2 l1 (by omega) le_rfl]

/-- The two-pointer merge of strictly increasing sequences is strictly
increasing. -/
theorem sorted_mergeRun : ∀ (fuel : Nat) (l1 l2 : List Nat),
    l1.length + l2.length ≤ fuel →
    List.Sorted (· < ·) l1 → List.Sorted (· < ·) l2 →
    List.Sorted (· < ·) (mergeRun fuel l1 l2) := by
  intro fuel
  induction fuel with
  | zero =>
    intro l1 l2 h h1 h2
    have e1 : l1 = [] := List.eq_nil_of_length_eq_zero (by omega)
    have e2 : l2 = [] := List.eq_nil_of_length_eq_zero (by omega)
    subst e1; subst e2
    rw [mergeRun_nil_left]; exact h2
  | succ fuel ih =>
    intro l1 l2 h h1 h2
    cases l1 with
    | nil => rw [mergeRun_nil_left]; exact h2
    | cons d1 t1 =>
      cases l2 with
      | nil => rw [mergeRun_nil_right]; exact h1
      | cons d2 t2 =>
        simp only [List.length_cons] at h
        rw [List.sorted_cons] at h1 h2
        rw [mergeRun_succ_cons_cons]
        split
        · split
          · rename_i hle hge
            have hd : d1 = d2 := Nat.le_antisymm hle hge
            rw [List.sorted_cons]
            refine ⟨?_, ih t1 t2 (by omega) h1.2 h2.2⟩
            intro b hb
            rw [mem_mergeRun fuel t1 t2 (by omega) b] at hb
            rcases hb with hb | hb
            · exact h1.1 b hb
            · exact hd ▸ h2.1 b hb
          · rename_i hle hnge
            rw [List.sorted_cons]
            refine ⟨?_, ih t1 (d2 :: t2) (by simp only [List.length_cons]; omega) h1.2
              (List.sorted_cons.2 h2)⟩
            intro b hb
            rw [mem_mergeRun fuel t1 (d2 :: t2) (by simp only [List.length_cons]; omega) b] at hb
            rcases hb with hb | hb
            · exact h1.1 b hb
            · rcases List.mem_cons.1 hb with hb | hb
              · omega
              · have := h2.1 b hb; omega
        · rename_i hngt
          rw [List.sorted_cons]
          refine ⟨?_, ih (d1 :: t1) t2 (by simp only [List.length_cons]; omega)
            (List.sorted_cons.2 h1) h2.2⟩
          intro b hb
          rw [mem_mergeRun fuel (d1 :: t1) t2 (by simp only [List.length_cons]; omega) b] at hb
          rcases hb with hb | hb
          · rcases List.mem_cons.1 hb with hb | hb
            · omega
            · have := h1.1 b hb; omega
          · exact h2.1 b hb

/-- `mergeDiv` of strictly increasing sequences is strictly increasing. -/
theorem sorted_mergeDiv {l1 l2 : List Nat}
    (h1 : List.Sorted (· < ·) l1) (h2 : List.Sorted (· < ·) l2) :
    List.Sorted (· < ·) (mergeDiv l1 l2) :=
  sorted_mergeRun (l1.length + l2.length) l1 l2 le_rfl h1 h2

/-- The sorted union of two division-point lists, written from the spec's
words: the ascending sorting of the deduplicated concatenation. -/
def sortedUnion (l1 l2 : List Nat) : List Nat :=
  List.insertionSort (· ≤ ·) ((l1 ++ l2).dedup)

/-- Membership in the sorted union. -/
theorem mem_sortedUnion (l1 l2 : List Nat) (x : Nat) :
    x ∈ sortedUnion l1 l2 ↔ x ∈ l1 ∨ x ∈ l2 := by
  unfold sortedUnion
  rw [(List.perm_insertionSort _ _).mem_iff, List.mem_dedup, List.mem_append]

/-- The sorted union is strictly increasing. -/
theorem sorted_lt_sortedUnion (l1 l2 : List Nat) :
    List.Sorted (· < ·) (sortedUnion l1 l2) := by
  have hs : List.Sorted (· ≤ ·) (sortedUnion l1 l2) :=
    List.sorted_insertionSort _ _
  have hn : (sortedUnion l1 l2).Nodup :=
    (List.perm_insertionSort _ _).nodup_iff.2 (List.nodup_dedup _)
  exact (hs.and hn).imp (fun hab => lt_of_le_of_ne hab.1 hab.2)

/-- Two strictly increasing lists with the same members are equal. -/
theorem eq_of_sorted_lt_of_mem_iff {l1 l2 : List Nat}
    (h1 : List.Sorted (· < ·) l1) (h2 : List.Sorted (· < ·) l2)
    (hm : ∀ x, x ∈ l1 ↔ x ∈ l2) : l1 = l2 :=
  List.eq_of_perm_of_sorted
    ((List.perm_ext_iff_of_nodup h1.nodup h2.nodup).2 hm) h1 h2

/-- For strictly increasing operands, the code's two-pointer merge is exactly
the spec's sorted union. -/
theorem mergeDiv_eq_sortedUnion {l1 l2 : List Nat}
    (h1 : List.Sorted (· < ·) l1) (h2 : List.Sorted (· < ·) l2) :
    mergeDiv l1 l2 = sortedUnion l1 l2 :=
  eq_of_sorted_lt_of_mem_iff (sorted_mergeDiv h1 h2)
    (sorted_lt_sortedUnion l1 l2)
    (fun x => by rw [mem_mergeDiv, mem_sortedUnion])

/-!
## Inversion lemmas for the tensor operations -/

/-- Padding a buffer (the `realloc` growth) does not change any `getD` read
whose default is the padding stand-in. -/
theorem getD_append_replicate {α : Type} (l : List α) (z : α) (k i : Nat) :
    (l ++ List.replicate k z).getD i z = l.getD i z := by
  rcases Nat.lt_or_ge i l.length with h | h
  · exact List.getD_append l (List.replicate k z) z i h
  · rw [List.getD_append_right l (List.replicate k z) z i h,
      List.getD_eq_getElem?_getD, List.getElem?_replicate,
      List.getD_eq_default l z h]
    split <;> rfl

/-- Reading a `set` cell back. -/
theorem getD_set_self {α : Type} (l : List α) (i : Nat) (a d : α)
    (h : i < l.length) : (l.set i a).getD i d = a := by
  rw [List.getD_eq_getElem?_getD, List.getElem?_set_self h]
  rfl

/-- Reading another cell after a `set`. -/
theorem getD_set_ne {α : Type} (l : List α) {i j : Nat} (hij : i ≠ j)
    (a d : α) : (l.set i a).getD j d = l.getD j d := by
  rw [List.getD_eq_getElem?_getD, List.getElem?_set_ne hij,
    ← List.getD_eq_getElem?_getD]

/-- Effects of a successful `EnsureValueCapacity`: only the value buffer may
change, and only by zero padding — every read is preserved. -/
theorem ensureValueCapacity_false {t t1 : SegmentedTensor} {n : Nat}
    (h : t.EnsureValueCapacity n = (false, t1)) :
    t1.m_cVectorLength = t.m_cVectorLength ∧
    t1.m_cDimensionsMax = t.m_cDimensionsMax ∧
    t1.m_cDimensions = t.m_cDimensions ∧
    t1.m_aDimensions = t.m_aDimensions ∧
    t1.m_bExpanded = t.m_bExpanded ∧
    ∀ i, t1.m_aValues.getD i 0 = t.m_aValues.getD i 0 := by
  unfold SegmentedTensor.EnsureValueCapacity at h
  simp only [] at h
  split at h
  · split at h
    · exact absurd h (by simp)
    · split at h
      · exact absurd h (by simp)
      · injection h with _ h2
        subst h2
        refine ⟨rfl, rfl, rfl, rfl, rfl, ?_⟩
        intro i
        exact getD_append_replicate t.m_aValues 0 _ i
  · injection h with _ h2
    subst h2
    exact ⟨rfl, rfl, rfl, rfl, rfl, fun _ => rfl⟩

/-- `SetCountDivisions` fails, leaving the tensor unchanged, when growth is
required and either overflow check fires (SegmentedTensor.h:162-172). -/
theorem setCountDivisions_overflow {t : SegmentedTensor} {i K : Nat}
    (hcap : (t.m_aDimensions.getD i default).m_aDivisions.length < K)
    (hov : IsAddError K (K / 2) = true ∨
      IsMultiplyError sizeofTDivisions (K + K / 2) = true) :
    t.SetCountDivisions i K = (true, t) := by
  unfold SegmentedTensor.SetCountDivisions
  simp only []
  rw [if_pos hcap]
  by_cases hA : IsAddError K (K / 2) = true
  · rw [if_pos hA]
  · rcases hov with hov | hov
    · exact absurd hov hA
    · rw [if_neg hA, if_pos hov]

/-- Effects of a successful `SetCountDivisions`: other axes and all scalar
state are untouched; axis `i` records the new division count, has capacity at
least that count, keeps every stored division entry, and — when growth was
required — has the 1.5× target capacity. -/
theorem setCountDivisions_false {t t1 : SegmentedTensor} {i K : Nat}
    (h : t.SetCountDivisions i K = (false, t1)) :
    t1.m_cVectorLength = t.m_cVectorLength ∧
    t1.m_cDimensionsMax = t.m_cDimensionsMax ∧
    t1.m_cDimensions = t.m_cDimensions ∧
    t1.m_bExpanded = t.m_bExpanded ∧
    t1.m_aValues = t.m_aValues ∧
    t1.m_aDimensions.length = t.m_aDimensions.length ∧
    (∀ j, j ≠ i →
      t1.m_aDimensions.getD j default = t.m_aDimensions.getD j default) ∧
    (i < t.m_aDimensions.length →
      (t1.m_aDimensions.getD i default).m_cDivisions = K ∧
      K ≤ (t1.m_aDimensions.getD i default).m_aDivisions.length ∧
      (∀ j, (t1.m_aDimensions.getD i default).m_aDivisions.getD j 0 =
        (t.m_aDimensions.getD i default).m_aDivisions.getD j 0) ∧
      ((t.m_aDimensions.getD i default).m_aDivisions.length < K →
        (t1.m_aDimensions.getD i default).m_aDivisions.length = K + K / 2)) := by
  unfold SegmentedTensor.SetCountDivisions at h
  simp only [] at h
  split at h
  · rename_i hcap
    split at h
    · exact absurd h (by simp)
    · split at h
      · exact absurd h (by simp)
      · rename_i hmul
        injection h with _ h2
        subst h2
        refine ⟨rfl, rfl, rfl, rfl, rfl, by simp, ?_, ?_⟩
        · intro j hj
          simp only
          rw [List.getD_eq_getElem?_getD, List.getElem?_set_ne (fun e => hj e.symm),
            ← List.getD_eq_getElem?_getD]
        · intro hi
          have hlen : (List.replicate
              (K + K / 2 - (t.m_aDimensions.getD i default).m_aDivisions.length)
              0).length = K + K / 2 -
              (t.m_aDimensions.getD i default).m_aDivisions.length := by
            simp
          rw [getD_set_self _ _ _ _ hi]
          refine ⟨rfl, ?_, ?_, ?_⟩
          · simp only [List.length_append, List.length_replicate]
            omega
          · intro j
            exact getD_append_replicate _ 0 _ j
          · intro _
            simp only [List.length_append, List.length_replicate]
            omega
  · rename_i hcap
    injection h with _ h2
    subst h2
    refine ⟨rfl, rfl, rfl, rfl, rfl, by simp, ?_, ?_⟩
    · intro j hj
      simp only
      rw [List.getD_eq_getElem?_getD, List.getElem?_set_ne (fun e => hj e.symm),
        ← List.getD_eq_getElem?_getD]
    · intro hi
      rw [getD_set_self _ _ _ _ hi]
      refine ⟨rfl, ?_, fun _ => rfl, fun hc => absurd hc hcap⟩
      show K ≤ (t.m_aDimensions.getD i default).m_aDivisions.length
      omega

/-- Inversion of the division phase of `Add`: on success it only rewrites the
active axes from `i` on — each gets the division count and the meaningful
division entries of its merged sequence — leaving values, scalars, earlier
axes and the dimension-array length unchanged. -/
theorem addDivsPhase_some : ∀ (ms : List (List Nat)) (t : SegmentedTensor)
    (i : Nat) (C : SegmentedTensor),
    addDivsPhase t i ms = some C →
    C.m_cVectorLength = t.m_cVectorLength ∧
    C.m_cDimensionsMax = t.m_cDimensionsMax ∧
    C.m_cDimensions = t.m_cDimensions ∧
    C.m_bExpanded = t.m_bExpanded ∧
    C.m_aValues = t.m_aValues ∧
    C.m_aDimensions.length = t.m_aDimensions.length ∧
    (∀ j, j < i →
      C.m_aDimensions.getD j default = t.m_aDimensions.getD j default) ∧
    (∀ k, k < ms.length → i + k < t.m_aDimensions.length →
      (C.m_aDimensions.getD (i + k) default).m_cDivisions =
        (ms.getD k []).length ∧
      meanDivs (C.m_aDimensions.getD (i + k) default) = ms.getD k []) := by
  intro ms
  induction ms with
  | nil =>
    intro t i C h
    simp only [addDivsPhase] at h
    injection h with h
    subst h
    exact ⟨rfl, rfl, rfl, rfl, rfl, rfl, fun _ _ => rfl, fun k hk _ => by
      simp at hk⟩
  | cons m ms ih =>
    intro t i C h
    simp only [addDivsPhase] at h
    rcases hS : t.SetCountDivisions i m.length with ⟨b, t1⟩
    rw [hS] at h
    cases b with
    | true => exact absurd h (by simp)
    | false =>
      simp only [] at h
      obtain ⟨e1, e2, e3, e4, e5, e6, e7, e8⟩ := setCountDivisions_false hS
      obtain ⟨f1, f2, f3, f4, f5, f6, f7, f8⟩ := ih (writeDivs t1 i m) (i + 1) C h
      have w0 : (writeDivs t1 i m).m_cVectorLength = t1.m_cVectorLength := rfl
      have w1 : (writeDivs t1 i m).m_cDimensionsMax = t1.m_cDimensionsMax := rfl
      have w2 : (writeDivs t1 i m).m_cDimensions = t1.m_cDimensions := rfl
      have w3 : (writeDivs t1 i m).m_bExpanded = t1.m_bExpanded := rfl
      have w4 : (writeDivs t1 i m).m_aValues = t1.m_aValues := rfl
      have w5 : (writeDivs t1 i m).m_aDimensions.length =
          t1.m_aDimensions.length := by
        simp [writeDivs]
      have wne : ∀ j, j ≠ i → (writeDivs t1 i m).m_aDimensions.getD j default =
          t1.m_aDimensions.getD j default := by
        intro j hj
        simp only [writeDivs]
        rw [List.getD_eq_getElem?_getD,
          List.getElem?_set_ne (fun e => hj e.symm),
          ← List.getD_eq_getElem?_getD]
      refine ⟨by rw [f1, w0, e1], by rw [f2, w1, e2], by rw [f3, w2, e3],
        by rw [f4, w3, e4], by rw [f5, w4, e5], by rw [f6, w5, e6], ?_, ?_⟩
      · intro j hj
        rw [f7 j (by omega), wne j (by omega), e7 j (by omega)]
      · intro k hk hik
        cases k with
        | zero =>
          have hi : i < t.m_aDimensions.length := by omega
          have hi1 : i < t1.m_aDimensions.length := by omega
          obtain ⟨g1, g2, _, _⟩ := e8 hi
          have hwi : (writeDivs t1 i m).m_aDimensions.getD i default =
              ⟨(t1.m_aDimensions.getD i default).m_cDivisions,
               m ++ (t1.m_aDimensions.getD i default).m_aDivisions.drop
                 m.length⟩ := by
            simp only [writeDivs]
            exact getD_set_self _ _ _ _ hi1
          have hCi : C.m_aDimensions.getD (i + 0) default =
              (writeDivs t1 i m).m_aDimensions.getD i default := by
            rw [Nat.add_zero]
            exact f7 i (by omega)
          rw [hCi, hwi]
          constructor
          · exact g1
          · show (m ++ (t1.m_aDimensions.getD i default).m_aDivisions.drop
              m.length).take
              ((t1.m_aDimensions.getD i default).m_cDivisions) =
              (m :: ms).getD 0 []
            rw [g1]
            exact List.take_left' rfl
        | succ k' =>
          have hk' : k' < ms.length := by simp at hk; omega
          have hik' : (i + 1) + k' < (writeDivs t1 i m).m_aDimensions.length := by
            rw [w5, e6]; omega
          have hidx : i + (k' + 1) = (i + 1) + k' := by omega
          rw [hidx]
          have := f8 k' hk' hik'
          simpa using this

/-- The new meaningful value count of `Add` (before the `* L` scaling). -/
def cNewOf (t rhs : SegmentedTensor) : Nat :=
  listProd ((mergedsOf t rhs).map (fun m => m.length + 1))

/-- The meaningful values of a successful `t.Add rhs`, read from the original
(pre-growth) buffers. -/
def addFillOf (t rhs : SegmentedTensor) : List ℚ :=
  addValuesFill t.m_cVectorLength (cNewOf t rhs) t.m_aValues rhs.m_aValues
    ((dimsOf t).map meanDivs) ((dimsOf rhs).map meanDivs)
    ((dimsOf t).map (fun d => d.m_cDivisions + 1))
    ((dimsOf rhs).map (fun d => d.m_cDivisions + 1))
    ((mergedsOf t rhs).map (fun m => m.length + 1)) (mergedsOf t rhs)

/-- `addValuesFill` only reads the two value buffers through `getD`. -/
theorem addValuesFill_congr_vals {L n : Nat} {v1 v1' v2 v2' : List ℚ}
    {d1 d2 : List (List Nat)} {s1 s2 sN : List Nat} {ms : List (List Nat)}
    (h1 : ∀ i, v1.getD i 0 = v1'.getD i 0)
    (h2 : ∀ i, v2.getD i 0 = v2'.getD i 0) :
    addValuesFill L n v1 v2 d1 d2 s1 s2 sN ms =
      addValuesFill L n v1' v2' d1 d2 s1 s2 sN ms := by
  unfold addValuesFill
  exact List.map_congr_left (fun idx _ => by simp only []; rw [h1, h2])

/-- The fill has exactly the meaningful length. -/
theorem addValuesFill_length {L n : Nat} {v1 v2 : List ℚ}
    {d1 d2 : List (List Nat)} {s1 s2 sN : List Nat} {ms : List (List Nat)} :
    (addValuesFill L n v1 v2 d1 d2 s1 s2 sN ms).length = n * L := by
  unfold addValuesFill
  simp

/-- Inversion of a successful `Add` in the multi-dimensional case: the result
keeps the scalar state of `this`, rewrites every active axis with its merged
division sequence, and its meaningful values are the cell-wise sums
`addFillOf`. -/
theorem add_some_spec {t rhs C : SegmentedTensor} (h0 : t.m_cDimensions ≠ 0)
    (hadd : t.Add rhs = some C) :
    C.m_cVectorLength = t.m_cVectorLength ∧
    C.m_cDimensionsMax = t.m_cDimensionsMax ∧
    C.m_cDimensions = t.m_cDimensions ∧
    C.m_bExpanded = t.m_bExpanded ∧
    C.m_aDimensions.length = t.m_aDimensions.length ∧
    (∀ k, k < (mergedsOf t rhs).length → k < t.m_aDimensions.length →
      (C.m_aDimensions.getD k default).m_cDivisions =
        ((mergedsOf t rhs).getD k []).length ∧
      meanDivs (C.m_aDimensions.getD k default) = (mergedsOf t rhs).getD k []) ∧
    C.m_aValues.take (cNewOf t rhs * t.m_cVectorLength) = addFillOf t rhs := by
  unfold SegmentedTensor.Add at hadd
  rw [if_neg h0] at hadd
  simp only [] at hadd
  split at hadd
  · exact absurd hadd (by simp)
  · rcases hE : t.EnsureValueCapacity
        (listProd (List.map (fun m => m.length + 1) (mergedsOf t rhs)) *
          t.m_cVectorLength) with ⟨b, t1⟩
    rw [hE] at hadd
    cases b with
    | true => exact absurd hadd (by simp)
    | false =>
      simp only [] at hadd
      obtain ⟨e1, e2, e3, e4, e5, e6⟩ := ensureValueCapacity_false hE
      obtain ⟨f1, f2, f3, f4, f5, f6, _, f8⟩ :=
        addDivsPhase_some (mergedsOf t rhs) _ 0 C hadd
      dsimp only [] at f1 f2 f3 f4 f5 f6 f8
      have hn : cNewOf t rhs =
          listProd (List.map (fun m => m.length + 1) (mergedsOf t rhs)) := rfl
      refine ⟨f1.trans e1, f2.trans e2, f3.trans e3, f4.trans e5,
        f6.trans (congrArg List.length e4), ?_, ?_⟩
      · intro k hk hklen
        have := f8 k hk (by rw [e4]; omega)
        simpa using this
      · rw [f5]
        rw [hn, List.take_left' addValuesFill_length]
        unfold addFillOf
        rw [hn]
        exact addValuesFill_congr_vals e6 (fun _ => rfl)

/-- `getD` as `getElem` on an in-range index. -/
theorem getD_eq_getElem {α : Type} (l : List α) (d : α) {n : Nat}
    (h : n < l.length) : l.getD n d = l[n] := by
  rw [List.getD_eq_getElem?_getD, List.getElem?_eq_getElem h, Option.getD_some]

/-- `zipWith` respects pointwise-equal functions. -/
theorem zipWith_congr_fun {α β γ : Type} {f g : α → β → γ}
    (h : ∀ a b, f a b = g a b) (la : List α) (lb : List β) :
    List.zipWith f la lb = List.zipWith g la lb := by
  have he : f = g := funext (fun a => funext (fun b => h a b))
  rw [he]

/-- The per-axis merged sequences are symmetric in the operands (the
two-pointer merge is commutative). -/
theorem mergedsOf_comm (t rhs : SegmentedTensor) :
    mergedsOf t rhs = mergedsOf rhs t := by
  unfold mergedsOf
  rw [List.zipWith_comm]
  exact zipWith_congr_fun
    (fun a b => mergeDiv_comm (meanDivs b) (meanDivs a)) _ _

/-- Length of the merged-sequence list. -/
theorem mergedsOf_length {t rhs : SegmentedTensor}
    (hD : t.m_cDimensions = rhs.m_cDimensions)
    (hWA : t.m_cDimensions ≤ t.m_aDimensions.length)
    (hWB : rhs.m_cDimensions ≤ rhs.m_aDimensions.length) :
    (mergedsOf t rhs).length = t.m_cDimensions := by
  unfold mergedsOf dimsOf
  simp only [List.length_zipWith, List.length_take]
  omega

/-- The merged sequences as a `zipWith` over the division sequences. -/
theorem mergedsOf_eq_zipWith (t rhs : SegmentedTensor) :
    mergedsOf t rhs =
      List.zipWith mergeDiv (divisionsList t) (divisionsList rhs) := by
  unfold mergedsOf divisionsList
  rw [List.zipWith_map_left, List.zipWith_map_right]

/-- Packaging of the per-axis facts of `add_some_spec` into a single map
equality on the active dimensions. -/
theorem dims_map_eq_of_spec (C : SegmentedTensor) (ms : List (List Nat))
    (hlen : ms.length = C.m_cDimensions)
    (hW : C.m_cDimensions ≤ C.m_aDimensions.length)
    (h : ∀ k, k < ms.length →
      (C.m_aDimensions.getD k default).m_cDivisions = (ms.getD k []).length ∧
      meanDivs (C.m_aDimensions.getD k default) = ms.getD k []) :
    (dimsOf C).map (fun d => (d.m_cDivisions, meanDivs d)) =
      ms.map (fun m => (m.length, m)) := by
  apply List.ext_getElem
  · simp only [List.length_map, List.length_take, dimsOf]
    omega
  · intro n h1 h2
    simp only [List.length_map, List.length_take, dimsOf] at h1 h2
    have hnC : n < C.m_aDimensions.length := by omega
    have hnm : n < ms.length := by omega
    simp only [List.getElem_map]
    have hn2 : n < (dimsOf C).length := by
      simp only [dimsOf, List.length_take]
      omega
    have hd : (dimsOf C)[n] = C.m_aDimensions.getD n default := by
      unfold dimsOf at hn2 ⊢
      rw [List.getElem_take]
      exact (getD_eq_getElem _ _ hnC).symm
    have hm : ms[n] = ms.getD n [] :=
      (getD_eq_getElem _ _ hnm).symm
    rw [hd, hm]
    obtain ⟨hc, hdv⟩ := h n hnm
    rw [hc, hdv]

/-- Extracting the division sequences from the packaged map equality. -/
theorem divisionsList_eq_of_pairs {C : SegmentedTensor} {ms : List (List Nat)}
    (hmap : (dimsOf C).map (fun d => (d.m_cDivisions, meanDivs d)) =
      ms.map (fun m => (m.length, m))) : divisionsList C = ms := by
  have h2 := congrArg (List.map Prod.snd) hmap
  simp only [List.map_map, Function.comp] at h2
  have hl : (List.map (fun d => meanDivs d) (dimsOf C)) = List.map (fun m => m) ms := h2
  simpa [divisionsList] using hl

/-- Extracting the `K_i + 1` factors from the packaged map equality. -/
theorem countsMap_eq_of_pairs {C : SegmentedTensor} {ms : List (List Nat)}
    (hmap : (dimsOf C).map (fun d => (d.m_cDivisions, meanDivs d)) =
      ms.map (fun m => (m.length, m))) :
    (dimsOf C).map (fun d => d.m_cDivisions + 1) =
      ms.map (fun m => m.length + 1) := by
  have h2 := congrArg (List.map (fun p : Nat × List Nat => p.1 + 1)) hmap
  simpa [List.map_map, Function.comp] using h2

/-- Pointwise `mergeDiv` = `sortedUnion` on lists of strictly increasing
sequences. -/
theorem zipWith_mergeDiv_eq_sortedUnion : ∀ (la lb : List (List Nat)),
    (∀ l ∈ la, List.Sorted (· < ·) l) → (∀ l ∈ lb, List.Sorted (· < ·) l) →
    List.zipWith mergeDiv la lb = List.zipWith sortedUnion la lb := by
  intro la
  induction la with
  | nil => intro lb _ _; simp
  | cons a as ih =>
    intro lb h1 h2
    cases lb with
    | nil => simp
    | cons b bs =>
      simp only [List.zipWith]
      rw [mergeDiv_eq_sortedUnion (h1 a (by simp)) (h2 b (by simp)),
        ih bs (fun l hl => h1 l (by simp [hl])) (fun l hl => h2 l (by simp [hl]))]

/-- Every member of a `zipWith sortedUnion` is strictly increasing. -/
theorem sorted_mem_zipWith_sortedUnion : ∀ (la lb : List (List Nat))
    (l : List Nat), l ∈ List.zipWith sortedUnion la lb →
    List.Sorted (· < ·) l := by
  intro la
  induction la with
  | nil => intro lb l hl; simp at hl
  | cons a as ih =>
    intro lb l hl
    cases lb with
    | nil => simp at hl
    | cons b bs =>
      simp only [List.zipWith, List.mem_cons] at hl
      rcases hl with rfl | hl
      · exact sorted_lt_sortedUnion a b
      · exact ih bs l hl

/-- Inversion of `Add` in the zero-dimensional case
(SegmentedTensor.h:512-525). -/
theorem add_zero_dim_spec {t rhs C : SegmentedTensor}
    (h0 : t.m_cDimensions = 0) (hadd : t.Add rhs = some C) :
    C = zeroDimAdd t rhs := by
  unfold SegmentedTensor.Add at hadd
  rw [if_pos h0] at hadd
  exact (Option.some.inj hadd).symm

/-- The cell-wise fill of `Add` is symmetric in the operands. -/
theorem addFillOf_comm (A B : SegmentedTensor)
    (hL : A.m_cVectorLength = B.m_cVectorLength) :
    addFillOf A B = addFillOf B A := by
  unfold addFillOf addValuesFill cNewOf
  rw [mergedsOf_comm B A, ← hL]
  apply List.map_congr_left
  intro idx _
  simp only []
  exact add_comm _ _

/-- Claim C3: for operands with the same dimension count and score-vector
length, strictly increasing division sequences and the score-count invariant,
when both `A.Add(B)` and `B.Add(A)` succeed they produce identical division
sequences on every axis and identical meaningful scores. -/
theorem C3_add_comm (A B : SegmentedTensor)
    (hD : A.m_cDimensions = B.m_cDimensions)
    (hL : A.m_cVectorLength = B.m_cVectorLength)
    (hWA : A.m_cDimensions ≤ A.m_aDimensions.length)
    (hWB : B.m_cDimensions ≤ B.m_aDimensions.length)
    (hsA : ∀ l ∈ divisionsList A, List.Sorted (· < ·) l)
    (hsB : ∀ l ∈ divisionsList B, List.Sorted (· < ·) l)
    (hIA : scoreCount A ≤ A.m_aValues.length)
    (hIB : scoreCount B ≤ B.m_aValues.length)
    (hAB : (A.Add B).isSome = true) (hBA : (B.Add A).isSome = true) :
    (A.Add B).map divisionsList = (B.Add A).map divisionsList ∧
    (A.Add B).map (fun C => C.m_aValues.take (scoreCount C)) =
      (B.Add A).map (fun C => C.m_aValues.take (scoreCount C)) := by
  obtain ⟨CA, hCA⟩ := Option.isSome_iff_exists.1 hAB
  obtain ⟨CB, hCB⟩ := Option.isSome_iff_exists.1 hBA
  rw [hCA, hCB]
  by_cases h0 : A.m_cDimensions = 0
  · have h0B : B.m_cDimensions = 0 := by omega
    have hA' := add_zero_dim_spec h0 hCA
    have hB' := add_zero_dim_spec h0B hCB
    have e1 : (List.range A.m_cVectorLength).map
        (fun k => A.m_aValues.getD k 0 + B.m_aValues.getD k 0) =
        (List.range B.m_cVectorLength).map
        (fun k => B.m_aValues.getD k 0 + A.m_aValues.getD k 0) := by
      rw [← hL]
      exact List.map_congr_left (fun k _ => add_comm _ _)
    have sA : scoreCount (zeroDimAdd A B) = A.m_cVectorLength := by
      simp [zeroDimAdd, scoreCount, dimsOf, h0, listProd]
    have sB : scoreCount (zeroDimAdd B A) = B.m_cVectorLength := by
      simp [zeroDimAdd, scoreCount, dimsOf, h0B, listProd]
    constructor
    · rw [hA', hB']
      simp [divisionsList, dimsOf, h0, h0B, zeroDimAdd]
    · rw [hA', hB']
      simp only [Option.map_some']
      rw [sA, sB]
      show some (((List.range A.m_cVectorLength).map
        (fun k => A.m_aValues.getD k 0 + B.m_aValues.getD k 0) ++
        A.m_aValues.drop A.m_cVectorLength).take A.m_cVectorLength) =
        some (((List.range B.m_cVectorLength).map
        (fun k => B.m_aValues.getD k 0 + A.m_aValues.getD k 0) ++
        B.m_aValues.drop B.m_cVectorLength).take B.m_cVectorLength)
      rw [List.take_left' (by simp), List.take_left' (by simp), e1]
  · have h0B : B.m_cDimensions ≠ 0 := by omega
    obtain ⟨a1, a2, a3, a4, a5, a6, a7⟩ := add_some_spec h0 hCA
    obtain ⟨b1, b2, b3, b4, b5, b6, b7⟩ := add_some_spec h0B hCB
    have hmapA := dims_map_eq_of_spec CA (mergedsOf A B)
      (by rw [mergedsOf_length hD hWA hWB, a3])
      (by rw [a3, a5]; exact hWA)
      (fun k hk => a6 k hk
        (by rw [mergedsOf_length hD hWA hWB] at hk; omega))
    have hmapB := dims_map_eq_of_spec CB (mergedsOf B A)
      (by rw [mergedsOf_length hD.symm hWB hWA, b3])
      (by rw [b3, b5]; exact hWB)
      (fun k hk => b6 k hk
        (by rw [mergedsOf_length hD.symm hWB hWA] at hk; omega))
    have hdA : divisionsList CA = mergedsOf A B :=
      divisionsList_eq_of_pairs hmapA
    have hdB : divisionsList CB = mergedsOf B A :=
      divisionsList_eq_of_pairs hmapB
    constructor
    · simp only [Option.map_some']
      rw [hdA, hdB, mergedsOf_comm B A]
    · have hcA : scoreCount CA = cNewOf A B * A.m_cVectorLength := by
        unfold scoreCount cNewOf
        rw [countsMap_eq_of_pairs hmapA, a1]
        exact Nat.mul_comm _ _
      have hcB : scoreCount CB = cNewOf B A * B.m_cVectorLength := by
        unfold scoreCount cNewOf
        rw [countsMap_eq_of_pairs hmapB, b1]
        exact Nat.mul_comm _ _
      simp only [Option.map_some']
      rw [hcA, hcB, a7, b7, addFillOf_comm A B hL]

/-- Claim C4: a successful `A.Add(B)` on operands with strictly increasing
division sequences yields, on every axis, a strictly increasing division
sequence equal to the sorted union of the operands' division points. -/
theorem C4_add_divisions (A B : SegmentedTensor)
    (hD : A.m_cDimensions = B.m_cDimensions)
    (hWA : A.m_cDimensions ≤ A.m_aDimensions.length)
    (hWB : B.m_cDimensions ≤ B.m_aDimensions.length)
    (hsA : ∀ l ∈ divisionsList A, List.Sorted (· < ·) l)
    (hsB : ∀ l ∈ divisionsList B, List.Sorted (· < ·) l)
    (hsome : (A.Add B).isSome = true) :
    (A.Add B).map divisionsList =
      some (List.zipWith sortedUnion (divisionsList A) (divisionsList B)) ∧
    ∀ C, A.Add B = some C → ∀ l ∈ divisionsList C, List.Sorted (· < ·) l := by
  obtain ⟨C, hC⟩ := Option.isSome_iff_exists.1 hsome
  by_cases h0 : A.m_cDimensions = 0
  · have hCe := add_zero_dim_spec h0 hC
    have hdC : divisionsList C = [] := by
      rw [hCe]; simp [divisionsList, dimsOf, h0, zeroDimAdd]
    have hdA : divisionsList A = [] := by simp [divisionsList, dimsOf, h0]
    constructor
    · rw [hC]
      simp [hdC, hdA]
    · intro C' hC' l hl
      have hCC : C' = C := by
        rw [hC] at hC'
        exact (Option.some.inj hC').symm
      rw [hCC, hdC] at hl
      simp at hl
  · obtain ⟨a1, a2, a3, a4, a5, a6, a7⟩ := add_some_spec h0 hC
    have hmapA := dims_map_eq_of_spec C (mergedsOf A B)
      (by rw [mergedsOf_length hD hWA hWB, a3])
      (by rw [a3, a5]; exact hWA)
      (fun k hk => a6 k hk
        (by rw [mergedsOf_length hD hWA hWB] at hk; omega))
    have hdC : divisionsList C = mergedsOf A B :=
      divisionsList_eq_of_pairs hmapA
    have hzip : mergedsOf A B =
        List.zipWith sortedUnion (divisionsList A) (divisionsList B) := by
      rw [mergedsOf_eq_zipWith, zipWith_mergeDiv_eq_sortedUnion _ _ hsA hsB]
    constructor
    · rw [hC]
      simp only [Option.map_some']
      rw [hdC, hzip]
    · intro C' hC' l hl
      have hCC : C' = C := by
        rw [hC] at hC'
        exact (Option.some.inj hC').symm
      rw [hCC, hdC, hzip] at hl
      exact sorted_mem_zipWith_sortedUnion _ _ l hl

/-- Witness for claim C3 at the concrete three-dimensional pair
`mixC`/`mixD`: both adds succeed and the conclusions hold. -/
theorem C3_add_comm_witness :
    (mixC.Add mixD).isSome = true ∧ (mixD.Add mixC).isSome = true ∧
    (mixC.Add mixD).map divisionsList = (mixD.Add mixC).map divisionsList ∧
    (mixC.Add mixD).map (fun C => C.m_aValues.take (scoreCount C)) =
      (mixD.Add mixC).map (fun C => C.m_aValues.take (scoreCount C)) :=
  ⟨by with_unfolding_all decide, by with_unfolding_all decide,
   (C3_add_comm mixC mixD rfl rfl (by decide) (by decide) (by decide)
     (by decide) (by decide) (by decide) (by with_unfolding_all decide)
     (by with_unfolding_all decide)).1,
   (C3_add_comm mixC mixD rfl rfl (by decide) (by decide) (by decide)
     (by decide) (by decide) (by decide) (by with_unfolding_all decide)
     (by with_unfolding_all decide)).2⟩

/-- Witness for claim C4 at the concrete pair `scenD_A`/`scenD_B`: the add
succeeds and the result's divisions are the per-axis sorted unions. -/
theorem C4_add_divisions_witness :
    (scenD_A.Add scenD_B).isSome = true ∧
    (scenD_A.Add scenD_B).map divisionsList =
      some (List.zipWith sortedUnion (divisionsList scenD_A)
        (divisionsList scenD_B)) :=
  ⟨by with_unfolding_all decide,
   (C4_add_divisions scenD_A scenD_B rfl (by decide) (by decide) (by decide)
     (by decide) (by with_unfolding_all decide)).1⟩

/-!
## IsEqual, Reset and Allocate -/

/-- `listProd` of a cons. -/
theorem listProd_cons (x : Nat) (l : List Nat) :
    listProd (x :: l) = x * listProd l := rfl

/-- The dimension loop of `IsEqual` succeeds — returning the accumulated
meaningful value count — exactly when the two dimension lists agree on the
division counts and meaningful division sequences. -/
theorem isEqualLoop_eq_some : ∀ (l1 l2 : List DimensionInfo) (c : Nat),
    l1.map (fun d => (d.m_cDivisions, meanDivs d)) =
      l2.map (fun d => (d.m_cDivisions, meanDivs d)) →
    isEqualLoop l1 l2 c =
      some (c * listProd (l1.map (fun d => d.m_cDivisions + 1))) := by
  intro l1
  induction l1 with
  | nil =>
    intro l2 c h
    cases l2 with
    | nil => simp [isEqualLoop, listProd]
    | cons b bs => simp at h
  | cons a as ih =>
    intro l2 c h
    cases l2 with
    | nil => simp at h
    | cons b bs =>
      simp only [List.map_cons, List.cons.injEq, Prod.mk.injEq] at h
      obtain ⟨⟨hc, hd⟩, hrest⟩ := h
      simp only [isEqualLoop]
      rw [if_neg (by omega)]
      by_cases hz : a.m_cDivisions = 0
      · rw [if_pos hz, ih bs c hrest, List.map_cons, listProd_cons, hz]
        simp [Nat.mul_assoc]
      · rw [if_neg hz, if_pos hd, ih bs _ hrest, List.map_cons, listProd_cons]
        rw [Nat.mul_assoc]

/-- Core of claim C9: `IsEqual` holds whenever the two tensors agree on the
dimension count, the per-axis division counts and sequences, and the
meaningful scores — independently of `m_bExpanded` and of the allocated
capacities. -/
theorem isEqual_of_matching (t1 t2 : SegmentedTensor)
    (hD : t1.m_cDimensions = t2.m_cDimensions)
    (hL : t1.m_cVectorLength = t2.m_cVectorLength)
    (hdims : (dimsOf t1).map (fun d => (d.m_cDivisions, meanDivs d)) =
      (dimsOf t2).map (fun d => (d.m_cDivisions, meanDivs d)))
    (hvals : t1.m_aValues.take (scoreCount t1) =
      t2.m_aValues.take (scoreCount t2)) :
    t1.IsEqual t2 = true := by
  have hsc : scoreCount t1 = scoreCount t2 := by
    have h2 := congrArg (List.map (fun p : Nat × List Nat => p.1 + 1)) hdims
    rw [List.map_map, List.map_map] at h2
    have e1 : ((fun p : Nat × List Nat => p.1 + 1) ∘
        fun d : DimensionInfo => (d.m_cDivisions, meanDivs d)) =
        fun d : DimensionInfo => d.m_cDivisions + 1 := rfl
    rw [e1] at h2
    unfold scoreCount
    rw [hL, h2]
  unfold SegmentedTensor.IsEqual
  rw [if_neg (by omega)]
  rw [isEqualLoop_eq_some _ _ _ hdims]
  simp only [decide_eq_true_eq]
  have h1 : t1.m_cVectorLength *
      listProd ((dimsOf t1).map (fun d => d.m_cDivisions + 1)) =
      scoreCount t1 := rfl
  rw [h1, hvals, hsc]

/-- Claim C9: `IsEqual` compares only the dimension count, the per-axis
division counts and sequences, and the meaningful scores; two tensors
agreeing on these compare equal even when their `m_bExpanded` flags or
allocated capacities differ. -/
theorem C9_isEqual (t1 t2 : SegmentedTensor)
    (hD : t1.m_cDimensions = t2.m_cDimensions)
    (hL : t1.m_cVectorLength = t2.m_cVectorLength)
    (hdims : (dimsOf t1).map (fun d => (d.m_cDivisions, meanDivs d)) =
      (dimsOf t2).map (fun d => (d.m_cDivisions, meanDivs d)))
    (hvals : t1.m_aValues.take (scoreCount t1) =
      t2.m_aValues.take (scoreCount t2)) :
    t1.IsEqual t2 = true :=
  isEqual_of_matching t1 t2 hD hL hdims hvals

/-- A pair agreeing on everything `IsEqual` reads while differing in the
expanded flag and in both allocated capacities. -/
def c9a : SegmentedTensor :=
  { m_cVectorLength := 1, m_cDimensionsMax := 1, m_cDimensions := 1
    m_aValues := [3, 4], m_bExpanded := false
    m_aDimensions := [⟨1, [2]⟩] }

/-- Same meaningful content as `c9a`, larger capacities, expanded flag set. -/
def c9b : SegmentedTensor :=
  { m_cVectorLength := 1, m_cDimensionsMax := 1, m_cDimensions := 1
    m_aValues := [3, 4, 99, 99], m_bExpanded := true
    m_aDimensions := [⟨1, [2, 7, 8]⟩] }

/-- Witness for claim C9: `c9a` and `c9b` differ in expanded flag and
capacities yet compare equal. -/
theorem C9_isEqual_witness :
    c9a.m_bExpanded ≠ c9b.m_bExpanded ∧
    c9a.m_aValues.length ≠ c9b.m_aValues.length ∧
    (c9a.m_aDimensions.getD 0 default).m_aDivisions.length ≠
      (c9b.m_aDimensions.getD 0 default).m_aDivisions.length ∧
    c9a.IsEqual c9b = true :=
  ⟨by decide, by decide, by decide,
   C9_isEqual c9a c9b rfl rfl (by decide) (by with_unfolding_all decide)⟩

/-- Inversion of a successful `Allocate`. -/
theorem allocate_some_spec {Dmax L : Nat} {a : SegmentedTensor}
    (h : SegmentedTensor.Allocate Dmax L = some a) :
    a = { m_cVectorLength := L
          m_cDimensionsMax := Dmax
          m_cDimensions := Dmax
          m_aValues := List.replicate (L * k_initialValueCapacity) 0
          m_bExpanded := false
          m_aDimensions := List.replicate Dmax
            ⟨0, List.replicate k_initialDivisionCapacity 0⟩ } := by
  unfold SegmentedTensor.Allocate at h
  simp only [] at h
  split at h
  · exact absurd h (by simp)
  · split at h
    · exact absurd h (by simp)
    · exact (Option.some.inj h).symm

/-- `resetDimsList` preserves the buffer length. -/
theorem resetDimsList_length : ∀ (n : Nat) (ds : List DimensionInfo),
    (resetDimsList n ds).length = ds.length := by
  intro n
  induction n with
  | zero => intro ds; rfl
  | succ n ih =>
    intro ds
    cases ds with
    | nil => rfl
    | cons d ds => simp [resetDimsList, ih]

/-- The active dimensions after `resetDimsList` all have zero divisions. -/
theorem resetDimsList_take_map : ∀ (n : Nat) (ds : List DimensionInfo),
    n ≤ ds.length →
    ((resetDimsList n ds).take n).map (fun d => (d.m_cDivisions, meanDivs d)) =
      List.replicate n (0, ([] : List Nat)) := by
  intro n
  induction n with
  | zero => intro ds _; rfl
  | succ n ih =>
    intro ds h
    cases ds with
    | nil => simp at h
    | cons d ds =>
      simp only [resetDimsList, List.take, List.map_cons,
        List.replicate]
      congr 1
      exact ih ds (by simpa using h)

/-- Claim C5: after `Reset`, a tensor with `D = Dmax` compares `IsEqual` to a
freshly `Allocate`-d tensor with the same `Dmax` and `L`; both have every
division count zero and their first `L` scores zero. -/
theorem C5_reset_allocate (t a : SegmentedTensor)
    (hDmax : t.m_cDimensions = t.m_cDimensionsMax)
    (hW : t.m_cDimensions ≤ t.m_aDimensions.length)
    (hA : SegmentedTensor.Allocate t.m_cDimensionsMax t.m_cVectorLength =
      some a) :
    t.Reset.IsEqual a = true ∧
    (dimsOf t.Reset).map (fun d => d.m_cDivisions) =
      List.replicate t.m_cDimensions 0 ∧
    (dimsOf a).map (fun d => d.m_cDivisions) =
      List.replicate t.m_cDimensions 0 ∧
    t.Reset.m_aValues.take t.m_cVectorLength =
      List.replicate t.m_cVectorLength 0 ∧
    a.m_aValues.take t.m_cVectorLength =
      List.replicate t.m_cVectorLength 0 := by
  have ha := allocate_some_spec hA
  have hrd : (dimsOf t.Reset).map (fun d => (d.m_cDivisions, meanDivs d)) =
      List.replicate t.m_cDimensions (0, ([] : List Nat)) := by
    unfold SegmentedTensor.Reset dimsOf
    simp only []
    exact resetDimsList_take_map t.m_cDimensions t.m_aDimensions hW
  have had : (dimsOf a).map (fun d => (d.m_cDivisions, meanDivs d)) =
      List.replicate t.m_cDimensions (0, ([] : List Nat)) := by
    rw [ha]
    unfold dimsOf
    simp only []
    rw [List.take_replicate, Nat.min_self]
    rw [hDmax]
    apply List.ext_getElem
    · simp
    · intro n h1 h2
      simp only [List.getElem_map, List.getElem_replicate]
      simp [meanDivs]
  have hrv : t.Reset.m_aValues.take t.m_cVectorLength =
      List.replicate t.m_cVectorLength 0 := by
    unfold SegmentedTensor.Reset
    simp only []
    exact List.take_left' (by simp)
  have hav : a.m_aValues.take t.m_cVectorLength =
      List.replicate t.m_cVectorLength 0 := by
    rw [ha]
    simp only []
    rw [List.take_replicate]
    congr 1
    show min t.m_cVectorLength (t.m_cVectorLength * k_initialValueCapacity) =
      t.m_cVectorLength
    rw [show k_initialValueCapacity = 2 from rfl]
    omega
  have hscr : scoreCount t.Reset = t.m_cVectorLength := by
    unfold scoreCount
    have h2 := congrArg (List.map (fun p : Nat × List Nat => p.1 + 1)) hrd
    rw [List.map_map] at h2
    have e1 : ((fun p : Nat × List Nat => p.1 + 1) ∘
        fun d : DimensionInfo => (d.m_cDivisions, meanDivs d)) =
        fun d : DimensionInfo => d.m_cDivisions + 1 := rfl
    rw [e1] at h2
    have hRL : t.Reset.m_cVectorLength = t.m_cVectorLength := rfl
    rw [hRL, h2]
    have : ∀ n : Nat, listProd (List.map (fun p : Nat × List Nat => p.1 + 1)
        (List.replicate n (0, ([] : List Nat)))) = 1 := by
      intro n
      induction n with
      | zero => rfl
      | succ n ih => simpa [List.replicate, listProd_cons] using ih
    rw [this t.m_cDimensions, Nat.mul_one]
  have hsca : scoreCount a = t.m_cVectorLength := by
    unfold scoreCount
    have h2 := congrArg (List.map (fun p : Nat × List Nat => p.1 + 1)) had
    rw [List.map_map] at h2
    have e1 : ((fun p : Nat × List Nat => p.1 + 1) ∘
        fun d : DimensionInfo => (d.m_cDivisions, meanDivs d)) =
        fun d : DimensionInfo => d.m_cDivisions + 1 := rfl
    rw [e1] at h2
    have haL : a.m_cVectorLength = t.m_cVectorLength := by rw [ha]
    rw [haL, h2]
    have : ∀ n : Nat, listProd (List.map (fun p : Nat × List Nat => p.1 + 1)
        (List.replicate n (0, ([] : List Nat)))) = 1 := by
      intro n
      induction n with
      | zero => rfl
      | succ n ih => simpa [List.replicate, listProd_cons] using ih
    rw [this t.m_cDimensions, Nat.mul_one]
  refine ⟨?_, ?_, ?_, hrv, hav⟩
  · apply isEqual_of_matching
    · show t.m_cDimensions = a.m_cDimensions
      rw [ha, hDmax]
    · show t.m_cVectorLength = a.m_cVectorLength
      rw [ha]
    · rw [hrd, had]
    · rw [hscr, hsca, hrv, hav]
  · have h2 := congrArg (List.map (fun p : Nat × List Nat => p.1)) hrd
    rw [List.map_map] at h2
    have e1 : ((fun p : Nat × List Nat => p.1) ∘
        fun d : DimensionInfo => (d.m_cDivisions, meanDivs d)) =
        fun d : DimensionInfo => d.m_cDivisions := rfl
    rw [e1] at h2
    rw [h2]
    simp [List.map_replicate]
  · have h2 := congrArg (List.map (fun p : Nat × List Nat => p.1)) had
    rw [List.map_map] at h2
    have e1 : ((fun p : Nat × List Nat => p.1) ∘
        fun d : DimensionInfo => (d.m_cDivisions, meanDivs d)) =
        fun d : DimensionInfo => d.m_cDivisions := rfl
    rw [e1] at h2
    rw [h2]
    simp [List.map_replicate]

/-- Concrete tensor for the C5 witness: `D = Dmax = 2`, `L = 2`, nonzero
content and the expanded flag set. -/
def c5t : SegmentedTensor :=
  { m_cVectorLength := 2, m_cDimensionsMax := 2, m_cDimensions := 2
    m_aValues := [5, 6, 7, 8], m_bExpanded := true
    m_aDimensions := [⟨1, [3]⟩, ⟨0, [0]⟩] }

/-- The tensor `Allocate 2 2` produces. -/
def c5alloc : SegmentedTensor :=
  { m_cVectorLength := 2, m_cDimensionsMax := 2, m_cDimensions := 2
    m_aValues := [0, 0, 0, 0], m_bExpanded := false
    m_aDimensions := [⟨0, [0]⟩, ⟨0, [0]⟩] }

/-- Witness for claim C5: `Allocate` succeeds on the matching sizes and the
reset tensor compares equal to it. -/
theorem C5_reset_allocate_witness :
    SegmentedTensor.Allocate c5t.m_cDimensionsMax c5t.m_cVectorLength =
      some c5alloc ∧
    c5t.Reset.IsEqual c5alloc = true :=
  ⟨by with_unfolding_all decide,
   (C5_reset_allocate c5t c5alloc rfl (by decide)
     (by with_unfolding_all decide)).1⟩

/-- Claim C6: `SetCountDivisions(i, K)` with `K` above the current capacity
targets capacity `K + K/2`; if the addition or the byte-size multiplication
overflows the 64-bit word it fails leaving the tensor unchanged; on success
it records the division count `K`, preserves every stored division entry, and
— when growth was needed — reaches exactly the target capacity. -/
theorem C6_setCountDivisions (t : SegmentedTensor) (i K : Nat)
    (hi : i < t.m_aDimensions.length) :
    ((t.m_aDimensions.getD i default).m_aDivisions.length < K →
      IsAddError K (K / 2) = true ∨
        IsMultiplyError sizeofTDivisions (K + K / 2) = true →
      t.SetCountDivisions i K = (true, t)) ∧
    ((t.SetCountDivisions i K).1 = false →
      ((t.SetCountDivisions i K).2.m_aDimensions.getD i default).m_cDivisions
        = K ∧
      (∀ j, ((t.SetCountDivisions i K).2.m_aDimensions.getD i
          default).m_aDivisions.getD j 0 =
        (t.m_aDimensions.getD i default).m_aDivisions.getD j 0) ∧
      ((t.m_aDimensions.getD i default).m_aDivisions.length < K →
        ((t.SetCountDivisions i K).2.m_aDimensions.getD i
          default).m_aDivisions.length = K + K / 2)) := by
  constructor
  · intro hcap hov
    exact setCountDivisions_overflow hcap hov
  · intro hfalse
    rcases hS : t.SetCountDivisions i K with ⟨b, t1⟩
    rw [hS] at hfalse
    cases b with
    | true => simp at hfalse
    | false =>
      obtain ⟨_, _, _, _, _, _, _, e8⟩ := setCountDivisions_false hS
      obtain ⟨g1, _, g3, g4⟩ := e8 hi
      exact ⟨g1, g3, g4⟩

/-- Concrete tensor for the C6 witness. -/
def c6t : SegmentedTensor :=
  { m_cVectorLength := 1, m_cDimensionsMax := 1, m_cDimensions := 1
    m_aValues := [0, 0], m_bExpanded := false
    m_aDimensions := [⟨1, [4]⟩] }

/-- Witness for claim C6: a requested division count of `3 * 2^62` exceeds
the capacity and makes the 1.5× target overflow the 64-bit word, so the call
fails and the tensor is unchanged. -/
theorem C6_setCountDivisions_witness :
    c6t.SetCountDivisions 0 (2 ^ 63 + 2 ^ 62) = (true, c6t) :=
  (C6_setCountDivisions c6t 0 (2 ^ 63 + 2 ^ 62) (by decide)).1 (by decide)
    (Or.inl (by decide))

/-!
## Control-flow model of `GenerateTermUpdate`

The entry point `GenerateTermUpdate`
(src/shared/libebm/GenerateTermUpdate.cpp:460-1047) is modelled as a function
of an input record that bundles the genuine parameters with oracle values for
the external collaborators the spec places out of scope (the RNG seeding, the
`BinSumsBoosting`/`ConvertAddBin` kernels and the partitioners of the
inner-bag loop).  `double` is modelled by `Fp`, rationals extended with NaN
and the two infinities; only classification into finite / non-finite and the
comparison against the largest finite double matter to the claims. -/

/-- Model of a `double` value. -/
inductive Fp where
  | nan : Fp
  | pinf : Fp
  | ninf : Fp
  | fin : ℚ → Fp
deriving DecidableEq, Repr

/-- The largest finite `double`, `(2^53 - 1) * 2^971 = 2^1024 - 2^971`
(written via `Nat` exponentiation so that it evaluates). -/
def maxFiniteQ : ℚ := ((2 ^ 1024 - 2 ^ 971 : Nat) : ℚ)

/-- A value is finite iff it is neither NaN nor an infinity. -/
def Fp.isFinite : Fp → Bool
  | fin _ => true
  | _ => false

/-- IEEE `<=`: false whenever either side is NaN. -/
def Fp.le : Fp → Fp → Bool
  | nan, _ => false
  | _, nan => false
  | ninf, _ => true
  | _, ninf => false
  | pinf, pinf => true
  | fin _, pinf => true
  | pinf, fin _ => false
  | fin a, fin b => decide (a ≤ b)

/-- IEEE addition (overflow to the infinities; exact rational arithmetic in
the finite range, which is immaterial to the claims). -/
def Fp.add : Fp → Fp → Fp
  | nan, _ => nan
  | _, nan => nan
  | pinf, ninf => nan
  | ninf, pinf => nan
  | pinf, _ => pinf
  | _, pinf => pinf
  | ninf, _ => ninf
  | _, ninf => ninf
  | fin a, fin b =>
    if maxFiniteQ < |a + b| then (if a + b < 0 then ninf else pinf)
    else fin (a + b)

/-- IEEE multiplication (zero times infinity is NaN; overflow to the
infinities). -/
def Fp.mul : Fp → Fp → Fp
  | nan, _ => nan
  | _, nan => nan
  | pinf, pinf => pinf
  | pinf, ninf => ninf
  | ninf, pinf => ninf
  | ninf, ninf => pinf
  | pinf, fin b => if b = 0 then nan else if 0 < b then pinf else ninf
  | fin a, pinf => if a = 0 then nan else if 0 < a then pinf else ninf
  | ninf, fin b => if b = 0 then nan else if 0 < b then ninf else pinf
  | fin a, ninf => if a = 0 then nan else if 0 < a then ninf else pinf
  | fin a, fin b =>
    if maxFiniteQ < |a * b| then (if a * b < 0 then ninf else pinf)
    else fin (a * b)

/-- The error codes observable at the boundary. -/
inductive ErrorEbm where
  | None : ErrorEbm
  | OutOfMemory : ErrorEbm
  | IllegalParamVal : ErrorEbm
  | UnexpectedInternal : ErrorEbm
deriving DecidableEq, Repr

/-- `k_illegalGainDouble`.  Its definition lives in `ebm_internal.hpp`, which
is not among the reviewed sources; modelled from the spec as the reserved
out-of-band sentinel compared exactly, fixed to `-inf` by the comment at
GenerateTermUpdate.cpp:968-969 ("indicate an error/overflow with -inf").
No claim depends on the concrete value. -/
def k_illegalGainDouble : Fp := Fp.ninf

/-- Modelled from the spec: the value part of
`Tensor::MultiplyAndCheckForIssues` (`Tensor.hpp` is not among the reviewed
sources) — every meaningful score is multiplied by the scalar. -/
def scaleScores (scores : List Fp) (v : Fp) : List Fp :=
  scores.map (fun s => Fp.mul s v)

/-- Modelled from the spec: the check part of
`Tensor::MultiplyAndCheckForIssues` — true iff any score is NaN or ±∞. -/
def anyNonFinite (scores : List Fp) : Bool :=
  scores.any (fun s => !s.isFinite)

/-- Modelled from the spec: the meaningful scores of the round update tensor
after `SetCountDimensions(cDimensions); Reset()` (`Tensor.hpp` is not among
the reviewed sources): every `K_i = 0`, so `L·Π(K_i+1) = cScores` zeros. -/
def resetScores (cScores : Nat) : List Fp := List.replicate cScores (Fp.fin 0)

/-- Modelled from the spec: the per-axis division counts of the reset round
update tensor — all zero. -/
def resetDivCounts (cDimensions : Nat) : List Nat :=
  List.replicate cDimensions 0

/-- Input of the `GenerateTermUpdate` model: genuine parameters plus oracles
for the out-of-scope collaborators. -/
structure GtuInput where
  /-- `GetBoosterShellFromHandle(boosterHandle)` returned non-null. -/
  boosterValid : Bool
  /-- `pBoosterCore->GetCountTerms()`. -/
  cTerms : Nat
  /-- The `indexTerm` parameter. -/
  indexTerm : Int
  /-- `nullptr != avgGainOut`. -/
  avgGainPresent : Bool
  /-- The caller's prior `*avgGainOut` content (kept when absent). -/
  avgGainInit : Fp
  /-- `pBoosterCore->GetCountScores()`. -/
  cScores : Nat
  /-- `pTerm->GetCountTensorBins()`. -/
  cTensorBins : Nat
  /-- `pTerm->GetCountDimensions()`. -/
  cDimensions : Nat
  /-- `GetTrainingSet()->GetCountSamples()`. -/
  cSamples : Nat
  /-- The scalar `multiple` after the learning-rate/constant chain
  (GenerateTermUpdate.cpp:666-683), before the two-score halving. -/
  multiple : Fp
  /-- Oracle: failure of the nondeterministic RNG seeding
  (GenerateTermUpdate.cpp:701-711), `none` when seeding succeeds. -/
  rngFail : Option ErrorEbm
  /-- Oracle: first error returned inside the inner-bag loop
  (GenerateTermUpdate.cpp:750-959), `none` when the loop completes. -/
  bagError : Option ErrorEbm
  /-- Oracle: the per-bag accumulated terms `gain / weightTotal *
  gainMultiple` (GenerateTermUpdate.cpp:944-945). -/
  bagGainTerms : List Fp
  /-- The round update tensor's meaningful scores before the call. -/
  initScores : List Fp
  /-- The round update tensor's division counts before the call. -/
  initDivCounts : List Nat
  /-- Oracle: the round update tensor's meaningful scores after the
  inner-bag loop (accumulated partitioner output). -/
  postLoopScores : List Fp
  /-- Oracle: the round update tensor's division counts after the loop. -/
  postLoopDivCounts : List Nat
deriving DecidableEq, Repr

/-- Observable outcome of the call: the return code, the final content of
`*avgGainOut` (the initial content when the pointer is null), and the round
update tensor's state. -/
structure GtuOutput where
  err : ErrorEbm
  avgGainCell : Fp
  termUpdateScores : List Fp
  termUpdateDivCounts : List Nat
deriving DecidableEq, Repr

/-- The final multiplier: `multiple * 0.5` exactly when the score count is 2
(GenerateTermUpdate.cpp:990-1016). -/
def effMultiple (inp : GtuInput) : Fp :=
  if inp.cScores = 2 then Fp.mul inp.multiple (Fp.fin (1 / 2))
  else inp.multiple

/-- Control-flow model of `GenerateTermUpdate`
(src/shared/libebm/GenerateTermUpdate.cpp:460-1047). -/
def GenerateTermUpdate (inp : GtuInput) : GtuOutput :=
  -- :497-499 — the sentinel is written through avgGainOut before validation
  let cell0 := if inp.avgGainPresent then k_illegalGainDouble
    else inp.avgGainInit
  -- :501-505 — null booster handle
  if !inp.boosterValid then
    ⟨ErrorEbm.IllegalParamVal, cell0, inp.initScores, inp.initDivCounts⟩
  -- :510-513 — negative term index
  else if inp.indexTerm < 0 then
    ⟨ErrorEbm.IllegalParamVal, cell0, inp.initScores, inp.initDivCounts⟩
  -- :518-521 — term index at or above the term count
  else if (inp.cTerms : Int) ≤ inp.indexTerm then
    ⟨ErrorEbm.IllegalParamVal, cell0, inp.initScores, inp.initDivCounts⟩
  -- :569-580 — zero scores: gain 0, success
  else if inp.cScores = 0 then
    ⟨ErrorEbm.None, (if inp.avgGainPresent then Fp.fin 0 else cell0),
      inp.initScores, inp.initDivCounts⟩
  -- :585-598 — zero tensor bins: gain 0, success
  else if inp.cTensorBins = 0 then
    ⟨ErrorEbm.None, (if inp.avgGainPresent then Fp.fin 0 else cell0),
      inp.initScores, inp.initDivCounts⟩
  else
    -- :659-660 — the round update tensor is reset;
    -- :663 — an empty training set skips the whole block, leaving gain 0
    if inp.cSamples = 0 then
      ⟨ErrorEbm.None, (if inp.avgGainPresent then Fp.fin 0 else cell0),
        resetScores inp.cScores, resetDivCounts inp.cDimensions⟩
    else
      -- :690-714 — RNG seeding (external)
      match inp.rngFail with
      | some e => ⟨e, cell0, resetScores inp.cScores,
          resetDivCounts inp.cDimensions⟩
      | none =>
        -- :750-959 — inner-bag loop (external kernels and partitioners)
        match inp.bagError with
        | some e => ⟨e, cell0, inp.postLoopScores, inp.postLoopDivCounts⟩
        | none =>
          -- :944-945 — gain accumulation across bags
          let gainAvg0 := inp.bagGainTerms.foldl Fp.add (Fp.fin 0)
          -- :965-977 — accumulated-gain overflow: sentinel, update kept
          let gainAvg1 := if !(Fp.le gainAvg0 (Fp.fin maxFiniteQ))
            then k_illegalGainDouble else gainAvg0
          -- :990-1016 — scale by the (possibly halved) multiplier
          let scaled := scaleScores inp.postLoopScores (effMultiple inp)
          let bBad := anyNonFinite scaled
          if bBad then
            -- :1018-1026 — poisoned update: reset the tensor, sentinel
            ⟨ErrorEbm.None,
              (if inp.avgGainPresent then k_illegalGainDouble else cell0),
              resetScores inp.cScores, resetDivCounts inp.cDimensions⟩
          else
            -- :1029-1046 — commit: write the gain, return success
            ⟨ErrorEbm.None,
              (if inp.avgGainPresent then gainAvg1 else cell0),
              scaled, inp.postLoopDivCounts⟩

/-- Claim C7: when scaling the round update tensor by the final multiplier
(`effMultiple`, halved exactly for two scores) produces any NaN or ±∞ score,
the round update tensor is reset to the zero state, the illegal-gain sentinel
is reported through `avgGainOut`, and the return code is still `None`. -/
theorem C7_poisoned_update (inp : GtuInput)
    (h1 : inp.boosterValid = true) (h2 : 0 ≤ inp.indexTerm)
    (h3 : inp.indexTerm < (inp.cTerms : Int))
    (h4 : inp.cScores ≠ 0) (h5 : inp.cTensorBins ≠ 0)
    (h6 : inp.cSamples ≠ 0)
    (h7 : inp.rngFail = none) (h8 : inp.bagError = none)
    (h9 : inp.avgGainPresent = true)
    (hbad : anyNonFinite (scaleScores inp.postLoopScores (effMultiple inp)) =
      true) :
    (GenerateTermUpdate inp).err = ErrorEbm.None ∧
    (GenerateTermUpdate inp).avgGainCell = k_illegalGainDouble ∧
    (GenerateTermUpdate inp).termUpdateScores = resetScores inp.cScores ∧
    (GenerateTermUpdate inp).termUpdateDivCounts =
      resetDivCounts inp.cDimensions := by
  have g2 : ¬(inp.indexTerm < 0) := not_lt.2 h2
  have g3 : ¬((inp.cTerms : Int) ≤ inp.indexTerm) := not_le.2 h3
  unfold GenerateTermUpdate
  rw [h1, h7, h8]
  simp [g2, g3, h4, h5, h6, h9, hbad]

/-- Claim C8, counterexample: an execution whose accumulated gain overflows
*and* whose scaled update contains a NaN — the sentinel is reported and the
return code is `None`, but the round update tensor is *not* preserved: the
numeric-poisoning check resets it. -/
def c8input : GtuInput :=
  { boosterValid := true, cTerms := 1, indexTerm := 0
    avgGainPresent := true, avgGainInit := Fp.fin 0
    cScores := 1, cTensorBins := 2, cDimensions := 1, cSamples := 1
    multiple := Fp.fin 1, rngFail := none, bagError := none
    bagGainTerms := [Fp.pinf]
    initScores := [Fp.fin 0], initDivCounts := [0]
    postLoopScores := [Fp.nan], postLoopDivCounts := [1] }

/-- Claim C8, counterexample theorem: on `c8input` the accumulated gain
exceeds the largest finite double, the sentinel is reported with return code
`None`, yet the round update tensor is reset — neither the post-loop scores
nor their scaling survive — refuting the unconditional preservation stated by
the claim. -/
theorem C8_counterexample :
    Fp.le (c8input.bagGainTerms.foldl Fp.add (Fp.fin 0))
      (Fp.fin maxFiniteQ) = false ∧
    (GenerateTermUpdate c8input).err = ErrorEbm.None ∧
    (GenerateTermUpdate c8input).avgGainCell = k_illegalGainDouble ∧
    (GenerateTermUpdate c8input).termUpdateScores ≠ c8input.postLoopScores ∧
    (GenerateTermUpdate c8input).termUpdateScores ≠
      scaleScores c8input.postLoopScores (effMultiple c8input) ∧
    (GenerateTermUpdate c8input).termUpdateScores =
      resetScores c8input.cScores := by
  with_unfolding_all decide

/-- Claim C8, amended: when the accumulated average gain exceeds the largest
finite double after all inner bags, the sentinel is reported through
`avgGainOut` and the return code is `None`; the computed round update tensor
is preserved (scaled by the final multiplier, not reset) *provided* the
scaled scores are all finite — otherwise the numeric-poisoning check resets
it. -/
theorem C8_gain_overflow (inp : GtuInput)
    (h1 : inp.boosterValid = true) (h2 : 0 ≤ inp.indexTerm)
    (h3 : inp.indexTerm < (inp.cTerms : Int))
    (h4 : inp.cScores ≠ 0) (h5 : inp.cTensorBins ≠ 0)
    (h6 : inp.cSamples ≠ 0)
    (h7 : inp.rngFail = none) (h8 : inp.bagError = none)
    (h9 : inp.avgGainPresent = true)
    (hov : Fp.le (inp.bagGainTerms.foldl Fp.add (Fp.fin 0))
      (Fp.fin maxFiniteQ) = false)
    (hfin : anyNonFinite (scaleScores inp.postLoopScores (effMultiple inp)) =
      false) :
    (GenerateTermUpdate inp).err = ErrorEbm.None ∧
    (GenerateTermUpdate inp).avgGainCell = k_illegalGainDouble ∧
    (GenerateTermUpdate inp).termUpdateScores =
      scaleScores inp.postLoopScores (effMultiple inp) ∧
    (GenerateTermUpdate inp).termUpdateDivCounts =
      inp.postLoopDivCounts := by
  have g2 : ¬(inp.indexTerm < 0) := not_lt.2 h2
  have g3 : ¬((inp.cTerms : Int) ≤ inp.indexTerm) := not_le.2 h3
  unfold GenerateTermUpdate
  rw [h1, h7, h8]
  simp [g2, g3, h4, h5, h6, h9, hov, hfin]

/-- Claim C10: the sentinel is written into `*avgGainOut` (when the pointer
is non-null) before any parameter validation, so each of the three
`IllegalParamVal` returns — null booster handle, negative term index, term
index at or above the term count — leaves `*avgGainOut` equal to the
sentinel. -/
theorem C10_sentinel_on_illegal_param (inp : GtuInput)
    (hp : inp.avgGainPresent = true)
    (hbad : inp.boosterValid = false ∨ inp.indexTerm < 0 ∨
      (inp.cTerms : Int) ≤ inp.indexTerm) :
    (GenerateTermUpdate inp).err = ErrorEbm.IllegalParamVal ∧
    (GenerateTermUpdate inp).avgGainCell = k_illegalGainDouble := by
  unfold GenerateTermUpdate
  rcases hbad with hb | hb | hb
  · rw [hb]
    simp [hp]
  · cases hv : inp.boosterValid with
    | false => simp [hp]
    | true => simp [hp, hb]
  · cases hv : inp.boosterValid with
    | false => simp [hp]
    | true =>
      by_cases h2 : inp.indexTerm < 0
      · simp [hp, h2]
      · simp [hp, h2, hb]

/-- Input for the C7 witness: the partitioners leave a NaN score, the gains
stay finite. -/
def c7input : GtuInput :=
  { c8input with bagGainTerms := [Fp.fin 5] }

/-- Witness for claim C7 at `c7input`. -/
theorem C7_poisoned_update_witness :
    anyNonFinite (scaleScores c7input.postLoopScores (effMultiple c7input)) =
      true ∧
    (GenerateTermUpdate c7input).err = ErrorEbm.None ∧
    (GenerateTermUpdate c7input).avgGainCell = k_illegalGainDouble ∧
    (GenerateTermUpdate c7input).termUpdateScores =
      resetScores c7input.cScores :=
  ⟨by with_unfolding_all decide,
   (C7_poisoned_update c7input rfl (by decide) (by decide) (by decide)
     (by decide) (by decide) rfl rfl rfl (by with_unfolding_all decide)).1,
   (C7_poisoned_update c7input rfl (by decide) (by decide) (by decide)
     (by decide) (by decide) rfl rfl rfl (by with_unfolding_all decide)).2.1,
   (C7_poisoned_update c7input rfl (by decide) (by decide) (by decide)
     (by decide) (by decide) rfl rfl rfl (by with_unfolding_all decide)).2.2.1⟩

/-- Input for the C8 (amended) witness: gain overflow with a finite update. -/
def c8winput : GtuInput :=
  { c8input with postLoopScores := [Fp.fin 3] }

/-- Witness for the amended claim C8 at `c8winput`. -/
theorem C8_gain_overflow_witness :
    Fp.le (c8winput.bagGainTerms.foldl Fp.add (Fp.fin 0))
      (Fp.fin maxFiniteQ) = false ∧
    (GenerateTermUpdate c8winput).err = ErrorEbm.None ∧
    (GenerateTermUpdate c8winput).avgGainCell = k_illegalGainDouble ∧
    (GenerateTermUpdate c8winput).termUpdateScores =
      scaleScores c8winput.postLoopScores (effMultiple c8winput) :=
  ⟨by with_unfolding_all decide,
   (C8_gain_overflow c8winput rfl (by decide) (by decide) (by decide)
     (by decide) (by decide) rfl rfl rfl (by with_unfolding_all decide)
     (by with_unfolding_all decide)).1,
   (C8_gain_overflow c8winput rfl (by decide) (by decide) (by decide)
     (by decide) (by decide) rfl rfl rfl (by with_unfolding_all decide)
     (by with_unfolding_all decide)).2.1,
   (C8_gain_overflow c8winput rfl (by decide) (by decide) (by decide)
     (by decide) (by decide) rfl rfl rfl (by with_unfolding_all decide)
     (by with_unfolding_all decide)).2.2.1⟩

/-- Input for the C10 witness: a negative term index. -/
def c10input : GtuInput :=
  { c8input with indexTerm := -3 }

/-- Witness for claim C10 at `c10input`. -/
theorem C10_sentinel_witness :
    c10input.avgGainPresent = true ∧
    (GenerateTermUpdate c10input).err = ErrorEbm.IllegalParamVal ∧
    (GenerateTermUpdate c10input).avgGainCell = k_illegalGainDouble :=
  ⟨rfl,
   (C10_sentinel_on_illegal_param c10input rfl
     (Or.inr (Or.inl (by decide)))).1,
   (C10_sentinel_on_illegal_param c10input rfl
     (Or.inr (Or.inl (by decide)))).2⟩
